import Mathlib

/-!
Shallow embedding of the peer-to-peer networking core of the `reth`
repository (source files `crates/net/network/src/state.rs`,
`crates/net/network/src/transactions.rs` and `crates/primitives/src/net.rs`)
together with theorems settling the frozen claims about it.

Machine integers are modelled as `Nat` (`u16`/`u64` bounds appear as
explicit hypotheses where they matter).  Hashes (`H256`, `TxHash`) and peer
identifiers are abstracted to `Nat` in the networking sections, since only
equality on them is ever used there.  Channel endpoints are not modelled:
every network effect of an operation is returned as an explicit list of
events.  Rust `HashMap`s are modelled as association lists; the iteration
order of a `HashMap` (which the source itself documents as effectively
random) corresponds to the order of the list, and the theorems quantify
over it.
-/

namespace Reth

/-- Association-list lookup, modelling `HashMap::get`. -/
def alookup {α β : Type} [DecidableEq α] (k : α) : List (α × β) → Option β
  | [] => none
  | (a, b) :: t => if a = k then some b else alookup k t

/-- Association-list insert/replace, modelling `HashMap::insert` (replaces
the entry when the key is present, appends it otherwise). -/
def aset {α β : Type} [DecidableEq α] (k : α) (v : β) : List (α × β) → List (α × β)
  | [] => [(k, v)]
  | (a, b) :: t => if a = k then (k, v) :: t else (a, b) :: aset k v t

/-- Association-list removal, modelling `HashMap::remove` (drops the first
entry with the key; a well-formed map has at most one). -/
def aremove {α β : Type} [DecidableEq α] (k : α) : List (α × β) → List (α × β)
  | [] => []
  | (a, b) :: t => if a = k then t else (a, b) :: aremove k t

/-- The keys of an association list. -/
def akeys {α β : Type} (l : List (α × β)) : List α := l.map Prod.fst

/-- Integer square root by downward search, written structurally so the
kernel can evaluate it; `isqrt_eq_sqrt` below identifies it with
`Nat.sqrt`, i.e. with the floor of the real square root.  It models the
source's `(n as f64).sqrt() as usize`, which equals the integer square
root for every feasible map size (exactly below `2^52`). -/
def isqrtGo : Nat → Nat → Nat
  | 0, _ => 0
  | k + 1, n => if (k + 1) * (k + 1) ≤ n then k + 1 else isqrtGo k n

def isqrt (n : Nat) : Nat := isqrtGo n n

/-- Modelled from the spec: `crate::cache::LruCache` (§4.A), whose source
file is not among the given sources.  A bounded insertion-ordered set:
`insert` returns whether the element was newly inserted and evicts the
oldest entries once the capacity is exceeded; `contains` is membership;
`extend` folds `insert` over an iterator.  The entry list is kept
oldest-first; capacity is strictly positive at every use site. -/
structure LruCache (α : Type) where
  cap : Nat
  entries : List α
deriving DecidableEq

namespace LruCache

def new (α : Type) [DecidableEq α] (cap : Nat) : LruCache α := ⟨cap, []⟩

def contains {α : Type} [DecidableEq α] (c : LruCache α) (x : α) : Bool :=
  c.entries.contains x

def insert {α : Type} [DecidableEq α] (c : LruCache α) (x : α) : Bool × LruCache α :=
  if c.entries.contains x then (false, c)
  else
    let es := c.entries ++ [x]
    (true, ⟨c.cap, if c.cap < es.length then es.drop (es.length - c.cap) else es⟩)

def extend {α : Type} [DecidableEq α] (c : LruCache α) (xs : List α) : LruCache α :=
  xs.foldl (fun c x => (c.insert x).2) c

end LruCache

/-- `PeerId` (a fixed-width 64-byte public-key identifier in the source);
only equality on it is used by the networking logic, so it is abstracted. -/
abbrev PeerId := Nat

/-- `TxHash` (`H256`), abstracted: only equality is used. -/
abbrev TxHash := Nat

/-- `H256` block hashes, abstracted: only equality is used. -/
abbrev H256 := Nat

namespace Transactions

/-- `transactions.rs`: `PEER_TRANSACTION_CACHE_LIMIT = 1024 * 10`. -/
def PEER_TRANSACTION_CACHE_LIMIT : Nat := 1024 * 10

/-- A `TransactionSigned`, reduced to what `TransactionsManager` inspects:
its hash and whether ECDSA recovery (`into_ecrecovered`) succeeds.  The
recovered transaction has the same hash as the signed one. -/
structure TransactionSigned where
  hash : TxHash
  recoverable : Bool
deriving DecidableEq

/-- `Peer` of `transactions.rs`: the per-peer cache of transaction hashes
the peer is known to have seen.  The `request_tx` channel endpoint is not
modelled; sends to it appear as returned events. -/
structure Peer where
  transactions : LruCache TxHash
deriving DecidableEq

/-- `reth_transaction_pool::PropagateKind`. -/
inductive PropagateKind where
  | full (peer : PeerId)
  | hash (peer : PeerId)
deriving DecidableEq

/-- `PropagatedTransactions`: a map from transaction hash to the list of
propagation records, modelled as a total function (empty list = absent). -/
def Propagated := TxHash → List PropagateKind

def Propagated.empty : Propagated := fun _ => []

/-- `propagated.0.entry(hash).or_default().push(kind)`. -/
def Propagated.push (p : Propagated) (h : TxHash) (k : PropagateKind) : Propagated :=
  fun h' => if h' = h then p h' ++ [k] else p h'

/-- A network send performed by `propagate_transactions`: either the full
transactions (`NetworkHandle::send_transactions`) or only their hashes
(`NetworkHandle::send_transactions_hashes`). -/
inductive SendEvent where
  | fullTxs (peer : PeerId) (txs : List TransactionSigned)
  | txHashes (peer : PeerId) (hashes : List TxHash)
deriving DecidableEq

/-- The filtering pass of `propagate_transactions`:
`txs.iter().filter(|(hash, _)| peer.transactions.insert(*hash))`, i.e. for
each transaction insert its hash into the peer's cache and keep the pair
exactly when the hash was newly inserted (the `filter` predicate has the
`insert` side effect on the cache). -/
def filterNew (cache : LruCache TxHash) :
    List (TxHash × TransactionSigned) →
      LruCache TxHash × List (TxHash × TransactionSigned)
  | [] => (cache, [])
  | (h, t) :: rest =>
    let r := cache.insert h
    let rec' := filterNew r.2 rest
    (rec'.1, if r.1 then (h, t) :: rec'.2 else rec'.2)

/-- The body of `propagate_transactions`: iterate the peers with their
enumeration index `idx`; for each peer split the newly inserted
transactions into `(hashes, full)` (an `unzip` of the same filtered list);
when the list is non-empty send hashes if `idx > max_num_full` (recording
`PropagateKind::Hash`) and the full transactions otherwise (recording
`PropagateKind::Full`).  Returns the sends in emission order, the
`PropagatedTransactions` map, and the updated peers. -/
def propagateGo (maxNumFull : Nat) (txs : List (TxHash × TransactionSigned)) :
    Nat → Propagated → List (PeerId × Peer) →
      List SendEvent × Propagated × List (PeerId × Peer)
  | _, prop, [] => ([], prop, [])
  | idx, prop, (peerId, peer) :: rest =>
    let fr := filterNew peer.transactions txs
    let kept := fr.2
    let hashes := kept.map Prod.fst
    let full := kept.map Prod.snd
    let peer' : Peer := { transactions := fr.1 }
    if kept = [] then
      let r := propagateGo maxNumFull txs (idx + 1) prop rest
      (r.1, r.2.1, (peerId, peer') :: r.2.2)
    else if idx > maxNumFull then
      let prop1 := hashes.foldl (fun p h => p.push h (PropagateKind.hash peerId)) prop
      let r := propagateGo maxNumFull txs (idx + 1) prop1 rest
      (SendEvent.txHashes peerId hashes :: r.1, r.2.1, (peerId, peer') :: r.2.2)
    else
      let prop1 := hashes.foldl (fun p h => p.push h (PropagateKind.full peerId)) prop
      let r := propagateGo maxNumFull txs (idx + 1) prop1 rest
      (SendEvent.fullTxs peerId full :: r.1, r.2.1, (peerId, peer') :: r.2.2)

/-- `TransactionsManager::propagate_transactions` over the peers map
(modelled as a list in iteration order).
`max_num_full = (peers.len() as f64).sqrt() as usize + 1`; the `f64`
square root truncated to `usize` equals `Nat.sqrt` for every length a
peers map can have (exact below `2^52`). -/
def propagateTransactions (peers : List (PeerId × Peer))
    (txs : List (TxHash × TransactionSigned)) :
    List SendEvent × Propagated × List (PeerId × Peer) :=
  let maxNumFull := isqrt peers.length + 1
  propagateGo maxNumFull txs 0 Propagated.empty peers

/-- The peer a send event targets. -/
def eventPeer : SendEvent → PeerId
  | .fullTxs p _ => p
  | .txHashes p _ => p

/-- The send event addressed to a given peer, if any. -/
def findSend (events : List SendEvent) (pid : PeerId) : Option SendEvent :=
  events.find? (fun e => eventPeer e == pid)

/-- Number of full-transaction sends. -/
def countFull (events : List SendEvent) : Nat :=
  events.countP (fun e => match e with | .fullTxs _ _ => true | _ => false)

/-- Number of hash-only sends. -/
def countHash (events : List SendEvent) : Nat :=
  events.countP (fun e => match e with | .txHashes _ _ => true | _ => false)

/-- Sixteen connected peers with fresh caches (scenario S6 of the spec). -/
def peers16 : List (PeerId × Peer) :=
  (List.range 16).map (fun i => (i, ⟨LruCache.new TxHash PEER_TRANSACTION_CACHE_LIMIT⟩))

/-- Three fresh pool transactions. -/
def txs3 : List (TxHash × TransactionSigned) :=
  [(100, ⟨100, true⟩), (101, ⟨101, true⟩), (102, ⟨102, true⟩)]

/-- A reputation change issued through `NetworkHandle::reputation_change`
(`report_bad_message` always uses `ReputationChangeKind::BadTransactions`). -/
inductive ReputationEvent where
  | badTransactions (peer : PeerId)
deriving DecidableEq

/-- The state of `TransactionsManager` relevant to the claims: the dedupe
map `transactions_by_peers`, the in-flight pool imports (`pool_imports`,
each future identified by the hash it will resolve with), and the
connected peers.  Channels, inflight `GetPooledTransactions` requests and
the pool handle are not modelled. -/
structure TransactionsManager where
  transactionsByPeers : List (TxHash × List PeerId)
  poolImports : List TxHash
  peers : List (PeerId × Peer)
deriving DecidableEq

/-- The loop body of `import_transactions`: thread the peer cache, the
`transactions_by_peers` map, the pool imports and the
`has_bad_transactions` flag through the transaction list. -/
def importGo (peerId : PeerId) :
    List TransactionSigned → LruCache TxHash → List (TxHash × List PeerId) →
      List TxHash →
      LruCache TxHash × List (TxHash × List PeerId) × List TxHash × Bool
  | [], cache, byPeers, imports => (cache, byPeers, imports, false)
  | tx :: rest, cache, byPeers, imports =>
    if tx.recoverable then
      let cache1 := (cache.insert tx.hash).2
      match alookup tx.hash byPeers with
      | some peersList =>
        importGo peerId rest cache1 (aset tx.hash (peersList ++ [peerId]) byPeers) imports
      | none =>
        importGo peerId rest cache1 (aset tx.hash [peerId] byPeers) (imports ++ [tx.hash])
    else
      let r := importGo peerId rest cache byPeers imports
      (r.1, r.2.1, r.2.2.1, true)

/-- `TransactionsManager::import_transactions`.  Returns the new state and
the reputation changes issued (one `BadTransactions` report when any
transaction failed recovery).  When the sending peer is not in `peers` the
whole loop is skipped and `has_bad_transactions` stays false. -/
def importTransactions (m : TransactionsManager) (peerId : PeerId)
    (transactions : List TransactionSigned) :
    TransactionsManager × List ReputationEvent :=
  match alookup peerId m.peers with
  | none => (m, [])
  | some peer =>
    let r := importGo peerId transactions peer.transactions
      m.transactionsByPeers m.poolImports
    ({ m with
        peers := aset peerId { transactions := r.1 } m.peers,
        transactionsByPeers := r.2.1,
        poolImports := r.2.2.1 },
      if r.2.2.2 then [ReputationEvent.badTransactions peerId] else [])

/-- `TransactionsManager::on_good_import`: drop the
`transactions_by_peers` entry. -/
def onGoodImport (m : TransactionsManager) (h : TxHash) : TransactionsManager :=
  { m with transactionsByPeers := aremove h m.transactionsByPeers }

/-- `TransactionsManager::on_bad_import`: remove the entry and penalise
every peer in the removed list (in list order). -/
def onBadImport (m : TransactionsManager) (h : TxHash) :
    TransactionsManager × List ReputationEvent :=
  match alookup h m.transactionsByPeers with
  | some peersList =>
    ({ m with transactionsByPeers := aremove h m.transactionsByPeers },
      peersList.map ReputationEvent.badTransactions)
  | none => (m, [])

/-- The externally visible events that drive the manager state used by the
claims: session lifecycle (`on_network_event`), an incoming
`Transactions` message (`import_transactions`, also reached from the
in-flight request path of `poll`), and completion of a pool import future
(the `pool_imports` arm of `poll`; `FuturesUnordered` only yields futures
it holds, hence the membership guard). -/
inductive Event where
  | sessionEstablished (peer : PeerId)
  | sessionClosed (peer : PeerId)
  | incomingTransactions (peer : PeerId) (txs : List TransactionSigned)
  | goodImport (h : TxHash)
  | badImport (h : TxHash)

/-- One step of the manager, returning the reputation events it issues. -/
def step (m : TransactionsManager) (e : Event) :
    TransactionsManager × List ReputationEvent :=
  match e with
  | .sessionEstablished p =>
    ({ m with
        peers := aset p { transactions := LruCache.new TxHash PEER_TRANSACTION_CACHE_LIMIT } m.peers },
      [])
  | .sessionClosed p => ({ m with peers := aremove p m.peers }, [])
  | .incomingTransactions p txs => importTransactions m p txs
  | .goodImport h =>
    if h ∈ m.poolImports then
      (onGoodImport { m with poolImports := m.poolImports.erase h } h, [])
    else (m, [])
  | .badImport h =>
    if h ∈ m.poolImports then
      onBadImport { m with poolImports := m.poolImports.erase h } h
    else (m, [])

/-- The manager right after `TransactionsManager::new`. -/
def initManager : TransactionsManager :=
  { transactionsByPeers := [], poolImports := [], peers := [] }

/-- Run a sequence of events from a given state. -/
def runFrom (m : TransactionsManager) (events : List Event) : TransactionsManager :=
  events.foldl (fun m e => (step m e).1) m

/-- The well-formedness invariant of the manager state tied to claim C4:
the `transactions_by_peers` keys are exactly the hashes with an import in
flight, keys are unique, and no import future is duplicated. -/
def Inv (m : TransactionsManager) : Prop :=
  (akeys m.transactionsByPeers).Nodup ∧ m.poolImports.Nodup ∧
    ∀ h : TxHash, (alookup h m.transactionsByPeers).isSome ↔ h ∈ m.poolImports

/-- Peers `A = 1` and `B = 2` each send the same transaction `T = 100`
(scenario S5 of the spec). -/
def scenarioAB : List Event :=
  [.sessionEstablished 1, .sessionEstablished 2,
   .incomingTransactions 1 [⟨100, true⟩], .incomingTransactions 2 [⟨100, true⟩]]

/-- Run a sequence of events from the initial manager. -/
def run (events : List Event) : TransactionsManager :=
  runFrom initManager events

end Transactions

namespace State

/-- `state.rs`: `PEER_BLOCK_CACHE_LIMIT = 512`. -/
def PEER_BLOCK_CACHE_LIMIT : Nat := 512

/-- The `Status` handshake message, reduced to the only field
`on_session_activated` reads: the peer's head block hash. -/
structure Status where
  blockhash : H256
deriving DecidableEq

/-- `ActivePeer` of `state.rs`.  `capabilities` is kept opaque; the
`request_tx` channel endpoint is not modelled; the `pending_response`
one-shot receiver is identified by an abstract tag. -/
structure ActivePeer where
  bestHash : H256
  capabilities : Nat
  pendingResponse : Option Nat
  blocks : LruCache H256
deriving DecidableEq

/-- Modelled from the spec: `StateFetcher` (§4.C), whose source file is not
among the given sources.  Only the surface `NetworkState` consumes is
modelled: the per-peer registered head `(hash, number)`.
`update_peer_block` returns true exactly when the new number strictly
advances the stored head. -/
structure StateFetcher where
  peers : List (PeerId × (H256 × Nat))
deriving DecidableEq

namespace StateFetcher

/-- Modelled from the spec: `StateFetcher::new_active_peer`. -/
def newActivePeer (f : StateFetcher) (peer : PeerId) (bestHash : H256)
    (bestNumber : Nat) : StateFetcher :=
  { peers := aset peer (bestHash, bestNumber) f.peers }

/-- Modelled from the spec: `StateFetcher::on_session_closed` invalidates
the peer's slot. -/
def onSessionClosed (f : StateFetcher) (peer : PeerId) : StateFetcher :=
  { peers := aremove peer f.peers }

/-- Modelled from the spec: `StateFetcher::update_peer_block` returns true
when the new value strictly advances the peer's previous head. -/
def updatePeerBlock (f : StateFetcher) (peer : PeerId) (hash : H256)
    (number : Nat) : Bool × StateFetcher :=
  match alookup peer f.peers with
  | none => (false, f)
  | some prev =>
    if prev.2 < number then (true, { peers := aset peer (hash, number) f.peers })
    else (false, f)

end StateFetcher

/-- `StateAction` of `state.rs`.  The `NewBlock` message payload is reduced
to its hash and number; addresses, reasons and fork ids are opaque. -/
inductive StateAction where
  | newBlock (peerId : PeerId) (hash : H256) (number : Nat)
  | newBlockHashes (peerId : PeerId) (hashes : List (H256 × Nat))
  | connect (remoteAddr : Nat) (peerId : PeerId)
  | disconnect (peerId : PeerId) (reason : Option Nat)
  | discoveredEnrForkId (peerId : PeerId) (forkId : Nat)
  | peerAdded (peerId : PeerId)
  | peerRemoved (peerId : PeerId)
deriving DecidableEq

/-- `NewBlockMessage`, reduced to the fields the propagation code reads:
`msg.hash` and `msg.block.block.header.number`. -/
structure NewBlockMessage where
  hash : H256
  number : Nat
deriving DecidableEq

/-- The `NetworkState` fields the claims are about.  `client` models the
`BlockProvider`: `block_number(hash)` returns `Result<Option<u64>>`, and
the call site collapses it with `.ok().flatten()`, so `Err` and
`Ok(None)` coincide as `none`.  The discovery handle, the peers manager
and the genesis hash are not touched by any claimed operation and are
left out. -/
structure NetworkState where
  activePeers : List (PeerId × ActivePeer)
  queuedMessages : List StateAction
  client : H256 → Option Nat
  stateFetcher : StateFetcher

/-- `NetworkState::on_session_activated` (precondition, enforced by a
`debug_assert!` in the source: the peer is not already active).  Looks up
the block number of `status.blockhash` via the client (0 when unknown),
registers the peer with the `StateFetcher`, and inserts the
`ActivePeer`. -/
def onSessionActivated (st : NetworkState) (peer : PeerId) (capabilities : Nat)
    (status : Status) : NetworkState :=
  let blockNumber := (st.client status.blockhash).getD 0
  { st with
    stateFetcher := st.stateFetcher.newActivePeer peer status.blockhash blockNumber,
    activePeers := aset peer
      { bestHash := status.blockhash,
        capabilities := capabilities,
        pendingResponse := none,
        blocks := LruCache.new H256 PEER_BLOCK_CACHE_LIMIT } st.activePeers }

/-- `NetworkState::on_session_closed`: removes the `ActivePeer` and informs
the `StateFetcher`. -/
def onSessionClosed (st : NetworkState) (peer : PeerId) : NetworkState :=
  { st with
    activePeers := aremove peer st.activePeers,
    stateFetcher := st.stateFetcher.onSessionClosed peer }

/-- The loop of `NetworkState::announce_new_block`: skip peers whose
`blocks` cache contains the hash; for up to `num_propagate` others queue a
`NewBlock`, update the fetcher (adopting the hash as `best_hash` on
advancement), insert the hash into the peer's cache, and break once the
count reaches `num_propagate`. -/
def announceGo (numPropagate : Nat) (hash : H256) (number : Nat) :
    Nat → StateFetcher → List (PeerId × ActivePeer) →
      List StateAction × StateFetcher × List (PeerId × ActivePeer)
  | _, f, [] => ([], f, [])
  | count, f, (peerId, peer) :: rest =>
    if peer.blocks.contains hash then
      let r := announceGo numPropagate hash number count f rest
      (r.1, r.2.1, (peerId, peer) :: r.2.2)
    else if count < numPropagate then
      let u := f.updatePeerBlock peerId hash number
      let peer1 : ActivePeer :=
        { peer with
          bestHash := if u.1 then hash else peer.bestHash,
          blocks := (peer.blocks.insert hash).2 }
      if count + 1 ≥ numPropagate then
        ([StateAction.newBlock peerId hash number], u.2, (peerId, peer1) :: rest)
      else
        let r := announceGo numPropagate hash number (count + 1) u.2 rest
        (StateAction.newBlock peerId hash number :: r.1, r.2.1, (peerId, peer1) :: r.2.2)
    else
      ([], f, (peerId, peer) :: rest)

/-- `NetworkState::announce_new_block`.
`num_propagate = (active_peers.len() as f64).sqrt() as u64 + 1`; the `f64`
square root truncated equals `Nat.sqrt` for every feasible peer count
(exact below `2^52`). -/
def announceNewBlock (st : NetworkState) (msg : NewBlockMessage) : NetworkState :=
  let numPropagate := isqrt st.activePeers.length + 1
  let r := announceGo numPropagate msg.hash msg.number 0 st.stateFetcher st.activePeers
  { st with
    queuedMessages := st.queuedMessages ++ r.1,
    stateFetcher := r.2.1,
    activePeers := r.2.2 }

/-- The loop of `NetworkState::announce_new_block_hash`: for every peer
whose `blocks` cache lacks the hash, update the fetcher (adopting
`best_hash` on advancement) and queue a `NewBlockHashes`; the cache is
not written. -/
def announceHashGo (hash : H256) (number : Nat) :
    StateFetcher → List (PeerId × ActivePeer) →
      List StateAction × StateFetcher × List (PeerId × ActivePeer)
  | f, [] => ([], f, [])
  | f, (peerId, peer) :: rest =>
    if peer.blocks.contains hash then
      let r := announceHashGo hash number f rest
      (r.1, r.2.1, (peerId, peer) :: r.2.2)
    else
      let u := f.updatePeerBlock peerId hash number
      let peer1 : ActivePeer :=
        { peer with bestHash := if u.1 then hash else peer.bestHash }
      let r := announceHashGo hash number u.2 rest
      (StateAction.newBlockHashes peerId [(hash, number)] :: r.1, r.2.1,
        (peerId, peer1) :: r.2.2)

/-- `NetworkState::announce_new_block_hash`. -/
def announceNewBlockHash (st : NetworkState) (msg : NewBlockMessage) : NetworkState :=
  let r := announceHashGo msg.hash msg.number st.stateFetcher st.activePeers
  { st with
    queuedMessages := st.queuedMessages ++ r.1,
    stateFetcher := r.2.1,
    activePeers := r.2.2 }

/-- `NetworkState::on_session_disconnected` (the response-channel error
path): removes the peer from `active_peers` only — the `StateFetcher` is
not informed. -/
def onSessionDisconnected (st : NetworkState) (peer : PeerId) : NetworkState :=
  { st with activePeers := aremove peer st.activePeers }

/-- The result of polling one peer's pending one-shot response receiver. -/
inductive PollOutcome where
  | readyErr
  | readyOk (resp : Nat)
  | stillPending

/-- The response-polling pass of `NetworkState::poll` (steps 4 and 5 of
the loop): every active peer with a pending response is polled once;
`Ready(Err)` schedules a session disconnect, `Ready(Ok)` buffers the
response for later processing, `Pending` restores the receiver.  Returns
the updated peer entries, the peers to disconnect and the buffered
responses, each in iteration order. -/
def pollPeers (outcome : PeerId → PollOutcome) :
    List (PeerId × ActivePeer) →
      List (PeerId × ActivePeer) × List PeerId × List (PeerId × Nat)
  | [] => ([], [], [])
  | (peerId, peer) :: rest =>
    let r := pollPeers outcome rest
    match peer.pendingResponse with
    | none => ((peerId, peer) :: r.1, r.2.1, r.2.2)
    | some _ =>
      match outcome peerId with
      | .readyErr =>
        ((peerId, { peer with pendingResponse := none }) :: r.1,
          peerId :: r.2.1, r.2.2)
      | .readyOk v =>
        ((peerId, { peer with pendingResponse := none }) :: r.1,
          r.2.1, (peerId, v) :: r.2.2)
      | .stillPending => ((peerId, peer) :: r.1, r.2.1, r.2.2)

/-- Steps 4 and 5 of `NetworkState::poll`: poll the pending responses,
then apply `on_session_disconnected` for every peer whose channel yielded
`Ready(Err)`.  The buffered `Ready(Ok)` responses are returned for the
subsequent `on_eth_response` processing, which is outside this phase. -/
def pollResponsesPhase (st : NetworkState) (outcome : PeerId → PollOutcome) :
    NetworkState × List (PeerId × Nat) :=
  let r := pollPeers outcome st.activePeers
  let peers1 := r.2.1.foldl (fun l p => aremove p l) r.1
  ({ st with activePeers := peers1 }, r.2.2)

/-- Number of `NewBlock` actions in a queue. -/
def countNewBlock (actions : List StateAction) : Nat :=
  actions.countP (fun a => match a with | .newBlock _ _ _ => true | _ => false)

/-- Number of `NewBlockHashes` actions in a queue. -/
def countNewBlockHashes (actions : List StateAction) : Nat :=
  actions.countP (fun a => match a with | .newBlockHashes _ _ => true | _ => false)

/-- A freshly activated peer with an empty block cache. -/
def freshPeer : ActivePeer :=
  ⟨0, 0, none, LruCache.new H256 PEER_BLOCK_CACHE_LIMIT⟩

/-- Nine active peers, none of which has seen any block (scenario S3). -/
def st9 : NetworkState :=
  { activePeers := (List.range 9).map (fun i => (i, freshPeer)),
    queuedMessages := [],
    client := fun _ => none,
    stateFetcher := ⟨[]⟩ }

/-- The announced block of scenario S3. -/
def msg9 : NewBlockMessage := ⟨77, 100⟩

/-- Two active peers, peer 1 with an in-flight block request. -/
def stC9 : NetworkState :=
  { activePeers :=
      [(1, ⟨0, 0, some 5, LruCache.new H256 PEER_BLOCK_CACHE_LIMIT⟩),
       (2, ⟨0, 0, none, LruCache.new H256 PEER_BLOCK_CACHE_LIMIT⟩)],
    queuedMessages := [],
    client := fun _ => none,
    stateFetcher := ⟨[(1, (0, 0)), (2, (0, 0))]⟩ }

/-- Peer 1's response channel yields `Ready(Err)`; all others stay
pending. -/
def outC9 : PeerId → PollOutcome :=
  fun q => if q = 1 then PollOutcome.readyErr else PollOutcome.stillPending

end State

namespace Primitives

/-- `std::net::IpAddr`, carried as raw octet lists (4 for V4, 16 for V6);
well-formedness is tracked by `IpAddr.WF`. -/
inductive IpAddr where
  | v4 (octets : List Nat)
  | v6 (octets : List Nat)
deriving DecidableEq

/-- Well-formedness of an address: the right octet count, each a byte. -/
def IpAddr.WF : IpAddr → Prop
  | .v4 o => o.length = 4 ∧ ∀ b ∈ o, b < 256
  | .v6 o => o.length = 16 ∧ ∀ b ∈ o, b < 256

/-- `NodeRecord` of `primitives/src/net.rs`.  The `id: PeerId` is the raw
64-byte public key. -/
structure NodeRecord where
  address : IpAddr
  tcp_port : Nat
  udp_port : Nat
  id : List Nat
deriving DecidableEq

/-- Well-formed `NodeRecord`: `u16` ports, 64-byte id. -/
def NodeRecord.WF (r : NodeRecord) : Prop :=
  r.address.WF ∧ r.tcp_port < 65536 ∧ r.udp_port < 65536 ∧
    r.id.length = 64 ∧ ∀ b ∈ r.id, b < 256

/-- `Octets` of `net.rs`: the address bytes as sent on the wire. -/
inductive Octets where
  | v4 (o : List Nat)
  | v6 (o : List Nat)
deriving DecidableEq

/-- The match in `Encodable for NodeRecord` building `Octets` from the
address. -/
def octetsOfAddr : IpAddr → Octets
  | .v4 o => Octets.v4 o
  | .v6 o => Octets.v6 o

/-- `impl From<Octets> for IpAddr`: a V6 whose `Ipv6Addr::to_ipv4` is
`Some` — i.e. the first five 16-bit segments are zero and the sixth is
`0` or `0xffff` — decodes to the embedded IPv4 address. -/
def octetsToIpAddr : Octets → IpAddr
  | .v4 o => IpAddr.v4 o
  | .v6 o =>
    if o.take 10 = List.replicate 10 0 ∧
        ((o.drop 10).take 2 = [0, 0] ∨ (o.drop 10).take 2 = [255, 255]) then
      IpAddr.v4 (o.drop 12)
    else IpAddr.v6 o

/-- Minimal big-endian bytes of a natural number (`[]` for 0), written
with structural fuel so the kernel can evaluate it. -/
def beBytesGo : Nat → Nat → List Nat
  | 0, _ => []
  | _ + 1, 0 => []
  | fuel + 1, n + 1 => beBytesGo fuel ((n + 1) / 256) ++ [(n + 1) % 256]

def beBytes (n : Nat) : List Nat := beBytesGo n n

/-- Big-endian value of a byte list. -/
def beVal (bs : List Nat) : Nat := bs.foldl (fun a b => a * 256 + b) 0

/-- RLP encoding of a byte string (`Encodable` for byte slices): a single
byte below `0x80` stands for itself; short strings get a `0x80 + len`
prefix; strings of 56 bytes or more get a `0xb7 + lenlen` prefix followed
by the big-endian length. -/
def encStr (bs : List Nat) : List Nat :=
  if bs.length = 1 ∧ bs.headD 0 < 0x80 then bs
  else if bs.length < 56 then (0x80 + bs.length) :: bs
  else (0xb7 + (beBytes bs.length).length) :: (beBytes bs.length ++ bs)

/-- RLP encoding of an unsigned integer: its minimal big-endian bytes as a
string. -/
def encodeUint (n : Nat) : List Nat := encStr (beBytes n)

/-- RLP list header in front of an already encoded payload. -/
def encList (payload : List Nat) : List Nat :=
  if payload.length < 56 then (0xc0 + payload.length) :: payload
  else (0xf7 + (beBytes payload.length).length) :: (beBytes payload.length ++ payload)

/-- `Encodable for Octets`: both variants encode their octet slice. -/
def encodeOctets : Octets → List Nat
  | .v4 o => encStr o
  | .v6 o => encStr o

/-- `Encodable for NodeRecord`: the derived list encoding of
`(octets, udp_port, tcp_port, id)`. -/
def encodeNodeRecord (r : NodeRecord) : List Nat :=
  encList (encodeOctets (octetsOfAddr r.address) ++ encodeUint r.udp_port ++
    encodeUint r.tcp_port ++ encStr r.id)

/-- `reth_rlp::Header::decode`: returns `(is_list, payload_length,
remaining buffer)`.  For a single byte below `0x80` the buffer is not
advanced (the byte is its own payload).  Non-canonical forms (a
single-byte string that should stand alone, long forms below 56, length
bytes with a leading zero) and short buffers are errors. -/
def decodeHeader : List Nat → Option (Bool × Nat × List Nat)
  | [] => none
  | b :: rest =>
    if b < 0x80 then some (false, 1, b :: rest)
    else if b < 0xb8 then
      let len := b - 0x80
      if len = 1 ∧ rest.headD 0 < 0x80 then none
      else if rest.length < len then none
      else some (false, len, rest)
    else if b < 0xc0 then
      let lol := b - 0xb7
      if rest.length < lol then none
      else if (rest.take lol).headD 1 = 0 then none
      else
        let len := beVal (rest.take lol)
        if len < 56 then none
        else if (rest.drop lol).length < len then none
        else some (false, len, rest.drop lol)
    else if b < 0xf8 then
      let len := b - 0xc0
      if rest.length < len then none else some (true, len, rest)
    else
      let lol := b - 0xf7
      if rest.length < lol then none
      else if (rest.take lol).headD 1 = 0 then none
      else
        let len := beVal (rest.take lol)
        if len < 56 then none
        else if (rest.drop lol).length < len then none
        else some (true, len, rest.drop lol)

/-- `Decodable` for unsigned integers of at most `maxLen` bytes: a
non-list header, payload within width, no leading zero. -/
def decodeUint (maxLen : Nat) (buf : List Nat) : Option (Nat × List Nat) :=
  match decodeHeader buf with
  | some (false, len, rest) =>
    if maxLen < len then none
    else if len ≠ 0 ∧ rest.headD 1 = 0 then none
    else some (beVal (rest.take len), rest.drop len)
  | _ => none

/-- `Decodable for u16`. -/
def decodeU16 (buf : List Nat) : Option (Nat × List Nat) := decodeUint 2 buf

/-- `Decodable for Octets`: a non-list header whose payload length is 4 or
16; anything else is an error. -/
def decodeOctets (buf : List Nat) : Option (Octets × List Nat) :=
  match decodeHeader buf with
  | some (false, len, rest) =>
    if len = 4 then some (Octets.v4 (rest.take 4), rest.drop 4)
    else if len = 16 then some (Octets.v6 (rest.take 16), rest.drop 16)
    else none
  | _ => none

/-- `Decodable for H512` (the `PeerId`): a non-list header whose payload is
exactly 64 bytes. -/
def decodeId (buf : List Nat) : Option (List Nat × List Nat) :=
  match decodeHeader buf with
  | some (false, len, rest) =>
    if len = 64 then some (rest.take 64, rest.drop 64) else none
  | _ => none

/-- `Decodable for NodeRecord`: a list header, then octets, udp, tcp and
id in order; additional trailing items inside the list are skipped; a
consumed length exceeding the announced payload is an error. -/
def decodeNodeRecord (buf : List Nat) : Option (NodeRecord × List Nat) :=
  match decodeHeader buf with
  | some (true, payloadLen, b0) =>
    match decodeOctets b0 with
    | some (octets, b1) =>
      match decodeU16 b1 with
      | some (udp, b2) =>
        match decodeU16 b2 with
        | some (tcp, b3) =>
          match decodeId b3 with
          | some (id, b4) =>
            let consumed := b0.length - b4.length
            if payloadLen < consumed then none
            else
              some ({ address := octetsToIpAddr octets, udp_port := udp,
                      tcp_port := tcp, id := id },
                b4.drop (payloadLen - consumed))
          | none => none
        | none => none
      | none => none
    | none => none
  | _ => none

/-- The record the decoder reconstructs from an encoded record: identical
except that an IPv4-compatible or IPv4-mapped V6 address comes back as the
embedded V4 address. -/
def normalizeRecord (r : NodeRecord) : NodeRecord :=
  { r with address := octetsToIpAddr (octetsOfAddr r.address) }

/-- A V6 address is IPv4-compatible or IPv4-mapped exactly when
`Ipv6Addr::to_ipv4` returns `Some`. -/
def isV4CompatOrMapped : IpAddr → Prop
  | .v4 _ => False
  | .v6 o => o.take 10 = List.replicate 10 0 ∧
      ((o.drop 10).take 2 = [0, 0] ∨ (o.drop 10).take 2 = [255, 255])

instance : DecidablePred isV4CompatOrMapped := by
  intro a
  cases a with
  | v4 o => exact .isFalse (fun h => h)
  | v6 o => exact inferInstanceAs (Decidable (_ ∧ _))

instance : DecidablePred IpAddr.WF := by
  intro a
  cases a with
  | v4 o => exact inferInstanceAs (Decidable (_ ∧ _))
  | v6 o => exact inferInstanceAs (Decidable (_ ∧ _))

instance (r : NodeRecord) : Decidable r.WF :=
  inferInstanceAs (Decidable (_ ∧ _))

/-- A concrete IPv4 record (the kind the source's own tests exercise). -/
def sampleRecord : NodeRecord :=
  { address := .v4 [10, 3, 58, 6], tcp_port := 30303, udp_port := 30301,
    id := (List.range 64).map (fun i => (i * 7 + 3) % 256) }

/-- A record whose address is the IPv4-mapped IPv6 `::ffff:1.2.3.4`. -/
def mappedRecord : NodeRecord :=
  { address := .v6 (List.replicate 10 0 ++ [255, 255, 1, 2, 3, 4]),
    tcp_port := 30303, udp_port := 30301, id := List.replicate 64 7 }

/-- A record with a plain (not IPv4-compatible/mapped) IPv6 address and
equal ports. -/
def recC7v6 : NodeRecord :=
  { address := .v6 (List.replicate 16 1), tcp_port := 1, udp_port := 1,
    id := List.replicate 64 0 }


/-- The ten decimal digit characters. -/
def digitChar : Nat → Char
  | 0 => '0' | 1 => '1' | 2 => '2' | 3 => '3' | 4 => '4'
  | 5 => '5' | 6 => '6' | 7 => '7' | 8 => '8' | _ => '9'

/-- Value of a decimal digit character (0 for non-digits). -/
def dval (c : Char) : Nat := c.toNat - 48

/-- Decimal rendering of a natural number (`Display` for integers),
most-significant digit first, written with structural fuel so the kernel
can evaluate it. -/
def natDecGo : Nat → Nat → List Char
  | 0, _ => []
  | fuel + 1, n =>
    if n < 10 then [digitChar n]
    else natDecGo fuel (n / 10) ++ [digitChar (n % 10)]

def natDec (n : Nat) : List Char := natDecGo (n + 1) n

/-- Value of a decimal digit string. -/
def decVal (l : List Char) : Nat := l.foldl (fun a c => a * 10 + dval c) 0

/-- Parse a non-empty all-digit string (`str::parse` for unsigned
integers, minus the width check). -/
def parseDec (l : List Char) : Option Nat :=
  if l ≠ [] ∧ l.all Char.isDigit then some (decVal l) else none

/-- The sixteen lowercase hexadecimal digit characters. -/
def hexChar : Nat → Char
  | 0 => '0' | 1 => '1' | 2 => '2' | 3 => '3' | 4 => '4'
  | 5 => '5' | 6 => '6' | 7 => '7' | 8 => '8' | 9 => '9'
  | 10 => 'a' | 11 => 'b' | 12 => 'c' | 13 => 'd' | 14 => 'e' | _ => 'f'

/-- Value of a hexadecimal digit character, either case. -/
def hval (c : Char) : Option Nat :=
  if '0' ≤ c ∧ c ≤ '9' then some (c.toNat - '0'.toNat)
  else if 'a' ≤ c ∧ c ≤ 'f' then some (c.toNat - 'a'.toNat + 10)
  else if 'A' ≤ c ∧ c ≤ 'F' then some (c.toNat - 'A'.toNat + 10)
  else none

/-- Lowercase hex rendering of one byte (`hex::encode` writes two digits
per byte). -/
def hexByte (b : Nat) : List Char := [hexChar (b / 16), hexChar (b % 16)]

/-- `hex::encode` of a byte string. -/
def hexBytes (bs : List Nat) : List Char := (bs.map hexByte).flatten

/-- Decode a hex string two digits at a time (`hex::decode`); odd length
or a non-hex character is an error. -/
def parseHexBytes : List Char → Option (List Nat)
  | [] => some []
  | c1 :: c2 :: rest =>
    match hval c1, hval c2, parseHexBytes rest with
    | some a, some b, some bs => some ((a * 16 + b) :: bs)
    | _, _, _ => none
  | [_] => none

/-- `PeerId::from_str` (`H512` of the `fixed_hash` crate): exactly 128 hex
characters decoding to 64 bytes. -/
def peerIdFromStr (l : List Char) : Option (List Nat) :=
  if l.length = 128 then parseHexBytes l else none

/-- Join string pieces with a separator character. -/
def joinSep (sep : Char) : List (List Char) → List Char
  | [] => []
  | [x] => x
  | x :: xs => x ++ sep :: joinSep sep xs

/-- Split a string at every occurrence of a separator character. -/
def splitChar (sep : Char) : List Char → List (List Char)
  | [] => [[]]
  | c :: rest =>
    if c = sep then [] :: splitChar sep rest
    else
      match splitChar sep rest with
      | [] => [[c]]
      | p :: ps => (c :: p) :: ps

/-- `Display` for `Ipv4Addr`: dotted decimal. -/
def ipv4Display (o : List Nat) : List Char := joinSep '.' (o.map natDec)

/-- One octet of `Ipv4Addr::from_str`: decimal, at most 255, no leading
zero. -/
def parseIpv4Octet (p : List Char) : Option Nat :=
  match parseDec p with
  | some v => if v ≤ 255 ∧ (p.headD '0' = '0' → p = ['0']) then some v else none
  | none => none

def parseOctetList : List (List Char) → Option (List Nat)
  | [] => some []
  | p :: ps =>
    match parseIpv4Octet p, parseOctetList ps with
    | some v, some vs => some (v :: vs)
    | _, _ => none

/-- `Ipv4Addr::from_str`: exactly four dot-separated octets. -/
def parseIpv4 (s : List Char) : Option (List Nat) :=
  match parseOctetList (splitChar '.' s) with
  | some vs => if vs.length = 4 then some vs else none
  | none => none

/-- The eight 16-bit segments of sixteen address bytes. -/
def bytePairs : List Nat → List Nat
  | b1 :: b2 :: rest => (b1 * 256 + b2) :: bytePairs rest
  | _ => []

/-- Lowercase hex rendering of a segment, no leading zeros. -/
def natHexGo : Nat → Nat → List Char
  | 0, _ => []
  | fuel + 1, n =>
    if n < 16 then [hexChar n]
    else natHexGo fuel (n / 16) ++ [hexChar (n % 16)]

def natHex (n : Nat) : List Char := natHexGo (n + 1) n

/-- The longest run of zero segments, as in the `Display` implementation
of `Ipv6Addr` in `std`: scanning left to right, a later run replaces the
best only when strictly longer. -/
def lzrGo : List Nat → Nat → Nat × Nat → Nat × Nat → Nat × Nat
  | [], _, _, best => best
  | s :: rest, i, cur, best =>
    if s = 0 then
      let cur' := if cur.2 = 0 then (i, 1) else (cur.1, cur.2 + 1)
      let best' := if cur'.2 > best.2 then cur' else best
      lzrGo rest (i + 1) cur' best'
    else lzrGo rest (i + 1) (0, 0) best

def longestZeroRun (segs : List Nat) : Nat × Nat := lzrGo segs 0 (0, 0) (0, 0)

/-- `Display` for `Ipv6Addr` (std): `::` for the unspecified address,
`::1` for loopback, the embedded IPv4 form for IPv4-compatible and
IPv4-mapped addresses, otherwise hex groups with the longest zero run
(of length at least 2) compressed to `::`. -/
def ipv6Display (o : List Nat) : List Char :=
  let segs := bytePairs o
  if segs = List.replicate 8 0 then "::".data
  else if segs = [0, 0, 0, 0, 0, 0, 0, 1] then "::1".data
  else if o.take 10 = List.replicate 10 0 ∧
      ((o.drop 10).take 2 = [0, 0] ∨ (o.drop 10).take 2 = [255, 255]) then
    (if (o.drop 10).take 2 = [255, 255] then "::ffff:".data else "::".data) ++
      ipv4Display (o.drop 12)
  else
    let z := longestZeroRun segs
    if z.2 > 1 then
      joinSep ':' ((segs.take z.1).map natHex) ++ ':' :: ':' ::
        joinSep ':' ((segs.drop (z.1 + z.2)).map natHex)
    else joinSep ':' (segs.map natHex)

/-- `Display` for `IpAddr`. -/
def ipDisplay : IpAddr → List Char
  | .v4 o => ipv4Display o
  | .v6 o => ipv6Display o

/-- `Display` for `NodeRecord` (`net.rs` lines 59-74): the enode URL,
with the `?discport=` suffix exactly when the ports differ. -/
def displayNodeRecord (r : NodeRecord) : List Char :=
  "enode://".data ++ hexBytes r.id ++ '@' :: ipDisplay r.address ++
    ':' :: natDec r.tcp_port ++
    (if r.tcp_port ≠ r.udp_port then "?discport=".data ++ natDec r.udp_port else [])

/-- Hex value of a group of digits (`none` on a non-hex character). -/
def hexVal (l : List Char) : Option Nat :=
  l.foldl
    (fun acc c =>
      match acc, hval c with
      | some a, some v => some (a * 16 + v)
      | _, _ => none)
    (some 0)

def parseHexGroup (p : List Char) : Option Nat :=
  if p ≠ [] ∧ p.length ≤ 4 then hexVal p else none

/-- Bytes of a segment list. -/
def segsToBytes (segs : List Nat) : List Nat :=
  (segs.map (fun s => [s / 256, s % 256])).flatten

/-- Split at the first `::`, if any. -/
def splitDoubleColon : List Char → Option (List Char × List Char)
  | [] => none
  | ':' :: ':' :: rest => some ([], rest)
  | c :: rest =>
    match splitDoubleColon rest with
    | some (l, r) => some (c :: l, r)
    | none => none

/-- Colon-separated groups of an IPv6 side; the last group may be an
embedded dotted IPv4 address (two segments). -/
def parseGroups : List (List Char) → Option (List Nat)
  | [] => some []
  | [p] =>
    if p.contains '.' then
      match parseIpv4 p with
      | some o => some (bytePairs o)
      | none => none
    else
      match parseHexGroup p with
      | some v => some [v]
      | none => none
  | p :: rest =>
    match parseHexGroup p, parseGroups rest with
    | some v, some vs => some (v :: vs)
    | _, _ => none

/-- `Ipv6Addr::from_str`, modelled: an optional `::` elision of one or
more zero groups, hex groups elsewhere, an optional trailing embedded
IPv4.  (This branch is only reachable from a bracketed URL host, which
the `Display` form never produces.) -/
def parseIpv6 (s : List Char) : Option (List Nat) :=
  match splitDoubleColon s with
  | some (l, r) =>
    let lg := if l = [] then some [] else parseGroups (splitChar ':' l)
    let rg := if r = [] then some [] else parseGroups (splitChar ':' r)
    match lg, rg with
    | some a, some b =>
      if a.length + b.length ≤ 7 then
        some (segsToBytes (a ++ List.replicate (8 - a.length - b.length) 0 ++ b))
      else none
    | _, _ => none
  | none =>
    match parseGroups (splitChar ':' s) with
    | some a => if a.length = 8 then some (segsToBytes a) else none
    | none => none

/-- The outcome of `Url::parse` that `FromStr for NodeRecord` consumes:
scheme, username, host text (with whether it was bracketed), port and
query pairs. -/
structure UrlParts where
  scheme : List Char
  username : List Char
  hostBracketed : Bool
  host : List Char
  port : Option Nat
  query : List (List Char × List Char)

/-- Split at the last occurrence of a character, if any. -/
def splitLastChar (sep : Char) (s : List Char) : Option (List Char × List Char) :=
  let r := s.reverse
  let afterRev := r.takeWhile (fun c => c != sep)
  if afterRev.length = s.length then none
  else some ((r.drop (afterRev.length + 1)).reverse, afterRev.reverse)

/-- Split at the first occurrence of a character; when absent the second
component is empty. -/
def splitFirst (sep : Char) (s : List Char) : List Char × List Char :=
  let pre := s.takeWhile (fun c => c != sep)
  (pre, s.drop (pre.length + 1))

/-- `Url::query_pairs`: `&`-separated `key=value` pairs. -/
def parseQueryPairs (q : List Char) : List (List Char × List Char) :=
  (splitChar '&' q).map (splitFirst '=')

/-- A `u16` port (`Url` rejects out-of-range ports). -/
def parsePortU16 (l : List Char) : Option Nat :=
  match parseDec l with
  | some v => if v ≤ 65535 then some v else none
  | none => none

/-- `Url::parse`, modelled on the grammar relevant to enode URLs:
`scheme://[userinfo@]host[:port][?query]`.  `enode` is not a special
scheme, so the host is opaque: a bracketed host yields `Host::Ipv6`,
anything else `Host::Domain`; a colon inside an unbracketed host ends it
and starts the port, which must be a decimal `u16`. -/
def urlParse (s : List Char) : Option UrlParts :=
  let scheme := s.takeWhile (fun c => c != ':')
  if scheme = [] then none
  else
    match s.drop scheme.length with
    | ':' :: '/' :: '/' :: rest2 =>
      let authority := rest2.takeWhile (fun c => c != '/' && c != '?' && c != '#')
      let afterAuth := rest2.drop authority.length
      let up :=
        match splitLastChar '@' authority with
        | some p => p
        | none => ([], authority)
      let username := up.1.takeWhile (fun c => c != ':')
      let hostport := up.2
      let query :=
        match afterAuth with
        | '?' :: q => parseQueryPairs (q.takeWhile (fun c => c != '#'))
        | _ => []
      if hostport.headD ' ' = '[' then
        let inner := (hostport.drop 1).takeWhile (fun c => c != ']')
        match (hostport.drop 1).drop inner.length with
        | ']' :: portPart =>
          match portPart with
          | [] => some ⟨scheme, username, true, inner, none, query⟩
          | ':' :: pd =>
            if pd = [] then some ⟨scheme, username, true, inner, none, query⟩
            else
              match parsePortU16 pd with
              | some p => some ⟨scheme, username, true, inner, some p, query⟩
              | none => none
          | _ => none
        | _ => none
      else
        let host := hostport.takeWhile (fun c => c != ':')
        if host = [] then none
        else
          match hostport.drop host.length with
          | [] => some ⟨scheme, username, false, host, none, query⟩
          | ':' :: pd =>
            if pd = [] then some ⟨scheme, username, false, host, none, query⟩
            else
              match parsePortU16 pd with
              | some p => some ⟨scheme, username, false, host, some p, query⟩
              | none => none
          | _ => none
    | _ => none

/-- `FromStr for NodeRecord` (`net.rs` lines 87-126): parse the URL; a
bracketed host is an IPv6 literal, any other host is an opaque
`Host::Domain` parsed with `Ipv4Addr::from_str`; the port is required;
`udp_port` comes from the first `discport` query pair when present
(parsed as `u16`), else equals the port; the username is the 128-hex-digit
id. -/
def nodeRecordFromStr (s : List Char) : Option NodeRecord :=
  match urlParse s with
  | none => none
  | some u =>
    let addrOpt : Option IpAddr :=
      if u.hostBracketed then (parseIpv6 u.host).map IpAddr.v6
      else (parseIpv4 u.host).map IpAddr.v4
    match addrOpt with
    | none => none
    | some addr =>
      match u.port with
      | none => none
      | some port =>
        let udpOpt : Option Nat :=
          match (u.query.find? (fun p => p.1 == "discport".data)).map Prod.snd with
          | some v =>
            match parseDec v with
            | some d => if d ≤ 65535 then some d else none
            | none => none
          | none => some port
        match udpOpt with
        | none => none
        | some udp =>
          match peerIdFromStr u.username with
          | some id =>
            some { address := addr, tcp_port := port, udp_port := udp, id := id }
          | none => none

end Primitives


-- ===================================================================
-- Theorems: auxiliary lemmas about the embedding
-- ===================================================================

theorem alookup_aset_self {α β : Type} [DecidableEq α] (k : α) (v : β) :
    ∀ l : List (α × β), alookup k (aset k v l) = some v := by
  intro l
  induction l with
  | nil => simp [aset, alookup]
  | cons hd tl ih =>
    by_cases h : hd.1 = k
    · simp [aset, h, alookup]
    · simpa [aset, h, alookup] using ih

theorem alookup_aset_ne {α β : Type} [DecidableEq α] (k k' : α) (v : β)
    (hne : k ≠ k') : ∀ l : List (α × β), alookup k' (aset k v l) = alookup k' l := by
  intro l
  induction l with
  | nil => simp [aset, alookup, hne]
  | cons hd tl ih =>
    by_cases h : hd.1 = k
    · simp [aset, h, alookup, hne]
    · simp [aset, h, alookup]
      by_cases h' : hd.1 = k'
      · simp [h']
      · simpa [h'] using ih

theorem alookup_eq_none_of_not_mem {α β : Type} [DecidableEq α] (k : α) :
    ∀ l : List (α × β), k ∉ akeys l → alookup k l = none := by
  intro l
  induction l with
  | nil => intro _; rfl
  | cons hd tl ih =>
    intro hk
    have h1 : hd.1 ≠ k := fun h => hk (by simp [akeys, h])
    have h2 : k ∉ akeys tl := fun h => hk (by simp [akeys]; right; simpa [akeys] using h)
    simp [alookup, h1, ih h2]

theorem alookup_aremove_self {α β : Type} [DecidableEq α] (k : α) :
    ∀ l : List (α × β), (akeys l).Nodup → alookup k (aremove k l) = none := by
  intro l
  induction l with
  | nil => intro _; rfl
  | cons hd tl ih =>
    intro hnd
    have hnd' : (akeys tl).Nodup := (List.nodup_cons.mp hnd).2
    have hhd : hd.1 ∉ akeys tl := (List.nodup_cons.mp hnd).1
    by_cases h : hd.1 = k
    · simp only [aremove, if_pos h]
      exact alookup_eq_none_of_not_mem k tl (h ▸ hhd)
    · simp only [aremove, if_neg h, alookup, if_neg h]
      exact ih hnd'

theorem alookup_aremove_ne {α β : Type} [DecidableEq α] (k k' : α) (hne : k ≠ k') :
    ∀ l : List (α × β), alookup k' (aremove k l) = alookup k' l := by
  intro l
  induction l with
  | nil => rfl
  | cons hd tl ih =>
    by_cases h : hd.1 = k
    · have h' : hd.1 ≠ k' := fun he => hne (h ▸ he)
      simp only [aremove, if_pos h, alookup, if_neg h']
    · simp only [aremove, if_neg h, alookup]
      by_cases h' : hd.1 = k'
      · simp [h']
      · simp [h', ih]

theorem mem_akeys_aset {α β : Type} [DecidableEq α] (k : α) (v : β) :
    ∀ l : List (α × β), ∀ a : α, a ∈ akeys (aset k v l) → a = k ∨ a ∈ akeys l := by
  intro l
  induction l with
  | nil => intro a ha; simp [aset, akeys] at ha; exact .inl ha
  | cons hd tl ih =>
    intro a ha
    by_cases h : hd.1 = k
    · simp only [aset, if_pos h, akeys, List.map_cons, List.mem_cons] at ha
      rcases ha with ha | ha
      · exact .inl ha
      · exact .inr (by simp only [akeys, List.map_cons, List.mem_cons]; exact .inr ha)
    · simp only [aset, if_neg h, akeys, List.map_cons, List.mem_cons] at ha
      rcases ha with ha | ha
      · exact .inr (by simp [akeys, ha])
      · rcases ih a ha with h' | h'
        · exact .inl h'
        · exact .inr (by simp only [akeys, List.map_cons, List.mem_cons]; exact .inr h')

theorem akeys_aset_nodup {α β : Type} [DecidableEq α] (k : α) (v : β) :
    ∀ l : List (α × β), (akeys l).Nodup → (akeys (aset k v l)).Nodup := by
  intro l
  induction l with
  | nil => intro _; simp [aset, akeys]
  | cons hd tl ih =>
    intro hnd
    have hhd : hd.1 ∉ akeys tl := (List.nodup_cons.mp hnd).1
    have hnd' : (akeys tl).Nodup := (List.nodup_cons.mp hnd).2
    by_cases h : hd.1 = k
    · subst h
      simp only [aset, if_pos rfl, akeys, List.map_cons]
      exact List.nodup_cons.mpr ⟨hhd, hnd'⟩
    · simp only [aset, if_neg h, akeys, List.map_cons]
      refine List.nodup_cons.mpr ⟨?_, ih hnd'⟩
      intro hmem
      rcases mem_akeys_aset k v tl hd.1 hmem with h' | h'
      · exact h h'
      · exact hhd h'

theorem isqrtGo_sq_le : ∀ (k n : Nat), isqrtGo k n * isqrtGo k n ≤ n := by
  intro k
  induction k with
  | zero => intro n; simp [isqrtGo]
  | succ m ih =>
    intro n
    by_cases h : (m + 1) * (m + 1) ≤ n
    · simp only [isqrtGo, if_pos h]
      exact h
    · simpa [isqrtGo, h] using ih n

theorem isqrtGo_max : ∀ (k n j : Nat), j ≤ k → j * j ≤ n → j ≤ isqrtGo k n := by
  intro k
  induction k with
  | zero => intro n j hj _; simpa [isqrtGo] using hj
  | succ m ih =>
    intro n j hj hsq
    by_cases h : (m + 1) * (m + 1) ≤ n
    · simpa [isqrtGo, h] using hj
    · have hjm : j ≤ m := by
        rcases Nat.lt_or_ge j (m + 1) with h' | h'
        · omega
        · exact absurd (Nat.le_trans (Nat.mul_le_mul h' h') hsq) h
      simpa [isqrtGo, h] using ih n j hjm hsq

theorem isqrt_eq_sqrt (n : Nat) : isqrt n = Nat.sqrt n := by
  apply Nat.le_antisymm
  · exact Nat.le_sqrt.mpr (isqrtGo_sq_le n n)
  · refine isqrtGo_max n n (Nat.sqrt n) (Nat.sqrt_le_self n) ?_
    have := Nat.sqrt_le' n
    simpa [Nat.pow_two] using this

namespace LruCache

theorem insert_fst_eq_not_contains {α : Type} [DecidableEq α] (c : LruCache α) (x : α) :
    (c.insert x).1 = !c.contains x := by
  by_cases h : x ∈ c.entries <;> simp [insert, contains, h]

theorem contains_insert_self {α : Type} [DecidableEq α] (c : LruCache α) (x : α)
    (hcap : 1 ≤ c.cap) : ((c.insert x).2.contains x) = true := by
  by_cases h : x ∈ c.entries
  · simp [insert, contains, h]
  · have hcond : ¬ (c.entries.contains x = true) := by simpa using h
    simp only [insert, if_neg hcond, contains]
    by_cases h' : c.cap < (c.entries ++ [x]).length
    · simp only [if_pos h']
      have hle : (c.entries ++ [x]).length - c.cap ≤ c.entries.length := by
        simp only [List.length_append, List.length_singleton]
        omega
      rw [List.drop_append_of_le_length hle]
      simp
    · simp only [if_neg h']
      simp

theorem contains_new {α : Type} [DecidableEq α] (cap : Nat) (x : α) :
    (LruCache.new α cap).contains x = false := by
  simp [new, contains]

end LruCache

namespace Primitives

theorem beBytesGo_zero (f : Nat) : beBytesGo f 0 = [] := by
  cases f <;> rfl

theorem beBytesGo_succ (f n : Nat) (h : 1 ≤ n) :
    beBytesGo (f + 1) n = beBytesGo f (n / 256) ++ [n % 256] := by
  cases n with
  | zero => omega
  | succ m => rfl

theorem beBytes_single (n : Nat) (h1 : 1 ≤ n) (h2 : n < 256) : beBytes n = [n] := by
  obtain ⟨m, rfl⟩ : ∃ m, n = m + 1 := ⟨n - 1, by omega⟩
  show beBytesGo (m + 1) (m + 1) = [m + 1]
  rw [beBytesGo_succ m (m + 1) (by omega)]
  rw [Nat.div_eq_of_lt h2, beBytesGo_zero, Nat.mod_eq_of_lt h2]
  rfl

theorem beBytes_two (n : Nat) (h1 : 256 ≤ n) (h2 : n < 65536) :
    beBytes n = [n / 256, n % 256] := by
  obtain ⟨k, rfl⟩ : ∃ k, n = k + 2 := ⟨n - 2, by omega⟩
  show beBytesGo (k + 2) (k + 2) = [(k + 2) / 256, (k + 2) % 256]
  rw [beBytesGo_succ (k + 1) (k + 2) (by omega)]
  have hd1 : 1 ≤ (k + 2) / 256 := (Nat.le_div_iff_mul_le (by omega)).mpr (by omega)
  have hd2 : (k + 2) / 256 < 256 := Nat.div_lt_of_lt_mul (by omega)
  rw [beBytesGo_succ k ((k + 2) / 256) hd1]
  rw [Nat.div_eq_of_lt hd2, beBytesGo_zero, Nat.mod_eq_of_lt hd2]
  rfl

theorem encodeUint_eq0 : encodeUint 0 = [0x80] := rfl

theorem encodeUint_eq1 (n : Nat) (h0 : 1 ≤ n) (h1 : n < 0x80) : encodeUint n = [n] := by
  rw [encodeUint, beBytes_single n h0 (by omega)]
  simp [encStr, h1]

theorem encodeUint_eq2 (n : Nat) (h1 : 0x80 ≤ n) (h2 : n < 256) :
    encodeUint n = [0x81, n] := by
  rw [encodeUint, beBytes_single n (by omega) h2]
  have hn : ¬ n < 0x80 := by omega
  simp [encStr, hn]

theorem encodeUint_eq3 (n : Nat) (h2 : 256 ≤ n) (hn : n < 65536) :
    encodeUint n = [0x82, n / 256, n % 256] := by
  rw [encodeUint, beBytes_two n h2 hn]
  simp [encStr]

theorem decodeU16_enc (n : Nat) (hn : n < 65536) (rest : List Nat) :
    decodeU16 (encodeUint n ++ rest) = some (n, rest) := by
  rcases Nat.lt_or_ge n 1 with h0 | h0
  · have hn0 : n = 0 := by omega
    subst hn0
    rw [encodeUint_eq0]
    simp [decodeU16, decodeUint, decodeHeader, beVal]
  · rcases Nat.lt_or_ge n 0x80 with h1 | h1
    · rw [encodeUint_eq1 n h0 h1]
      have hne : n ≠ 0 := by omega
      simp [decodeU16, decodeUint, decodeHeader, h1, beVal, hne]
    · rcases Nat.lt_or_ge n 256 with h2 | h2
      · rw [encodeUint_eq2 n h1 h2]
        have hnn : ¬ n < 0x80 := by omega
        have hne : n ≠ 0 := by omega
        simp [decodeU16, decodeUint, decodeHeader, hnn, beVal, hne]
      · rw [encodeUint_eq3 n h2 hn]
        have hd1 : 1 ≤ n / 256 := (Nat.le_div_iff_mul_le (by omega)).mpr (by omega)
        have hdne : n / 256 ≠ 0 := by omega
        have hmod := Nat.div_add_mod n 256
        have hlen : ¬ (rest.length + 1 + 1 < 2) := by omega
        simp [decodeU16, decodeUint, decodeHeader, beVal, hdne, hlen]
        omega

theorem decodeOctets_enc4 (o : List Nat) (h4 : o.length = 4) (rest : List Nat) :
    decodeOctets (encStr o ++ rest) = some (Octets.v4 o, rest) := by
  have he : encStr o = 0x84 :: o := by
    simp [encStr, h4]
  rw [he]
  have hh : decodeHeader (0x84 :: (o ++ rest)) = some (false, 4, o ++ rest) := by
    simp [decodeHeader]
    omega
  simp only [List.cons_append, decodeOctets, hh]
  have ht : (o ++ rest).take 4 = o := by rw [← h4]; exact List.take_left o rest
  have hd : (o ++ rest).drop 4 = rest := by rw [← h4]; exact List.drop_left o rest
  simp [ht, hd]

theorem decodeOctets_enc16 (o : List Nat) (h16 : o.length = 16) (rest : List Nat) :
    decodeOctets (encStr o ++ rest) = some (Octets.v6 o, rest) := by
  have he : encStr o = 0x90 :: o := by
    simp [encStr, h16]
  rw [he]
  have hh : decodeHeader (0x90 :: (o ++ rest)) = some (false, 16, o ++ rest) := by
    simp [decodeHeader]
    omega
  simp only [List.cons_append, decodeOctets, hh]
  have ht : (o ++ rest).take 16 = o := by rw [← h16]; exact List.take_left o rest
  have hd : (o ++ rest).drop 16 = rest := by rw [← h16]; exact List.drop_left o rest
  simp [ht, hd]

theorem decodeId_enc (id : List Nat) (h64 : id.length = 64) (rest : List Nat) :
    decodeId (encStr id ++ rest) = some (id, rest) := by
  have he : encStr id = 0xb8 :: 64 :: id := by
    rw [encStr, if_neg (by simp [h64]), if_neg (by simp [h64]), h64,
      beBytes_single 64 (by omega) (by omega)]
    rfl
  rw [he]
  have hh : decodeHeader (0xb8 :: 64 :: (id ++ rest)) = some (false, 64, id ++ rest) := by
    simp [decodeHeader, beVal]
    omega
  simp only [List.cons_append, decodeId, hh]
  have ht : (id ++ rest).take 64 = id := by rw [← h64]; exact List.take_left id rest
  have hd : (id ++ rest).drop 64 = rest := by rw [← h64]; exact List.drop_left id rest
  simp [ht, hd]

theorem decodeHeader_encList (p : List Nat) (h1 : 55 < p.length)
    (h2 : p.length < 256) (rest : List Nat) :
    decodeHeader (encList p ++ rest) = some (true, p.length, p ++ rest) := by
  have he : encList p = 0xf8 :: p.length :: p := by
    rw [encList, if_neg (by omega), beBytes_single p.length (by omega) h2]
    rfl
  rw [he]
  show decodeHeader (0xf8 :: p.length :: (p ++ rest)) = some (true, p.length, p ++ rest)
  have hne : p.length ≠ 0 := by omega
  have hlt : ¬ (p.length < 56) := by omega
  have hlen : ¬ ((p ++ rest).length < p.length) := by simp
  simp [decodeHeader, beVal, hne, hlt, hlen]

theorem encodeUint_length (n : Nat) (hn : n < 65536) :
    1 ≤ (encodeUint n).length ∧ (encodeUint n).length ≤ 3 := by
  rcases Nat.lt_or_ge n 1 with h0 | h0
  · have hn0 : n = 0 := by omega
    subst hn0
    rw [encodeUint_eq0]
    exact ⟨by decide, by decide⟩
  · rcases Nat.lt_or_ge n 0x80 with h1 | h1
    · rw [encodeUint_eq1 n h0 h1]; exact ⟨by simp, by simp⟩
    · rcases Nat.lt_or_ge n 256 with h2 | h2
      · rw [encodeUint_eq2 n h1 h2]; exact ⟨by simp, by simp⟩
      · rw [encodeUint_eq3 n h2 hn]; exact ⟨by simp, by simp⟩

theorem encStr_length_of_short (o : List Nat) (h : o.length < 56) (h1 : o.length ≠ 1) :
    (encStr o).length = o.length + 1 := by
  rw [encStr, if_neg (by simp [h1]), if_pos h]
  simp

theorem encStr_length_64 (id : List Nat) (h64 : id.length = 64) :
    (encStr id).length = 66 := by
  rw [encStr, if_neg (by simp [h64]), if_neg (by simp [h64]), h64,
    beBytes_single 64 (by omega) (by omega)]
  simp [h64]

theorem decodeNodeRecord_enc_core (oct : Octets) (eo : List Nat)
    (tcp udp : Nat) (id : List Nat)
    (hdec : ∀ tail : List Nat, decodeOctets (eo ++ tail) = some (oct, tail))
    (heolen : eo.length = 5 ∨ eo.length = 17)
    (htcp : tcp < 65536) (hudp : udp < 65536) (hid : id.length = 64)
    (rest : List Nat) :
    decodeNodeRecord
        (encList (eo ++ encodeUint udp ++ encodeUint tcp ++ encStr id) ++ rest) =
      some ({ address := octetsToIpAddr oct, udp_port := udp, tcp_port := tcp,
              id := id }, rest) := by
  have hu := encodeUint_length udp hudp
  have ht := encodeUint_length tcp htcp
  have hidl := encStr_length_64 id hid
  set p := eo ++ encodeUint udp ++ encodeUint tcp ++ encStr id with hp
  have hplen : 55 < p.length ∧ p.length < 256 := by
    rw [hp]
    simp only [List.length_append]
    rcases heolen with h | h <;> rw [h, hidl] <;> omega
  have hassoc : p ++ rest =
      eo ++ (encodeUint udp ++ (encodeUint tcp ++ (encStr id ++ rest))) := by
    rw [hp]
    simp [List.append_assoc]
  have hconsumed :
      (eo ++ (encodeUint udp ++ (encodeUint tcp ++ (encStr id ++ rest)))).length
        - rest.length = p.length := by
    rw [hp]
    simp only [List.length_append]
    omega
  simp only [decodeNodeRecord, decodeHeader_encList p hplen.1 hplen.2 rest,
    hassoc, hdec, decodeU16_enc udp hudp, decodeU16_enc tcp htcp,
    decodeId_enc id hid, hconsumed, Nat.lt_irrefl, if_false, Nat.sub_self,
    List.drop_zero]

theorem decodeNodeRecord_enc (r : NodeRecord) (h : r.WF) (rest : List Nat) :
    decodeNodeRecord (encodeNodeRecord r ++ rest) = some (normalizeRecord r, rest) := by
  obtain ⟨haddr, htcp, hudp, hid64, _⟩ := h
  rcases r with ⟨addr, tcp, udp, id⟩
  cases addr with
  | v4 o =>
    obtain ⟨h4, _⟩ := haddr
    have := decodeNodeRecord_enc_core (Octets.v4 o) (encStr o) tcp udp id
      (fun tail => decodeOctets_enc4 o h4 tail)
      (by left; rw [encStr_length_of_short o (by omega) (by omega), h4])
      htcp hudp hid64 rest
    simpa [encodeNodeRecord, octetsOfAddr, encodeOctets, normalizeRecord] using this
  | v6 o =>
    obtain ⟨h16, _⟩ := haddr
    have := decodeNodeRecord_enc_core (Octets.v6 o) (encStr o) tcp udp id
      (fun tail => decodeOctets_enc16 o h16 tail)
      (by right; rw [encStr_length_of_short o (by omega) (by omega), h16])
      htcp hudp hid64 rest
    simpa [encodeNodeRecord, octetsOfAddr, encodeOctets, normalizeRecord] using this

theorem normalizeRecord_eq_self (r : NodeRecord) (h : ¬ isV4CompatOrMapped r.address) :
    normalizeRecord r = r := by
  rcases r with ⟨addr, tcp, udp, id⟩
  cases addr with
  | v4 o => rfl
  | v6 o =>
    simp only [normalizeRecord, octetsOfAddr, octetsToIpAddr]
    rw [if_neg (by exact h)]

end Primitives

namespace Transactions

theorem propagateGo_event_peers (maxNumFull : Nat) (txs : List (TxHash × TransactionSigned)) :
    ∀ (peers : List (PeerId × Peer)) (idx : Nat) (prop : Propagated)
      (e : SendEvent), e ∈ (propagateGo maxNumFull txs idx prop peers).1 →
      eventPeer e ∈ akeys peers := by
  intro peers
  induction peers with
  | nil => intro idx prop e he; simp [propagateGo] at he
  | cons hd tl ih =>
    intro idx prop e he
    obtain ⟨pid, p⟩ := hd
    by_cases hk : (filterNew p.transactions txs).2 = []
    · simp only [propagateGo, if_pos hk] at he
      have := ih (idx + 1) prop e he
      simp [akeys] at this ⊢
      right
      exact this
    · by_cases hidx : idx > maxNumFull
      · simp only [propagateGo, if_neg hk, if_pos hidx, List.mem_cons] at he
        rcases he with he | he
        · subst he; simp [eventPeer, akeys]
        · have := ih (idx + 1) _ e he
          simp [akeys] at this ⊢
          right
          exact this
      · simp only [propagateGo, if_neg hk, if_neg hidx, List.mem_cons] at he
        rcases he with he | he
        · subst he; simp [eventPeer, akeys]
        · have := ih (idx + 1) _ e he
          simp [akeys] at this ⊢
          right
          exact this

theorem propagateGo_find (maxNumFull : Nat) (txs : List (TxHash × TransactionSigned)) :
    ∀ (peers : List (PeerId × Peer)) (idx : Nat) (prop : Propagated)
      (hnd : (akeys peers).Nodup) (i : Nat) (hi : i < peers.length),
      findSend (propagateGo maxNumFull txs idx prop peers).1 (peers.get ⟨i, hi⟩).1 =
        (if (filterNew (peers.get ⟨i, hi⟩).2.transactions txs).2 = [] then none
         else if idx + i > maxNumFull then
           some (SendEvent.txHashes (peers.get ⟨i, hi⟩).1
             ((filterNew (peers.get ⟨i, hi⟩).2.transactions txs).2.map Prod.fst))
         else
           some (SendEvent.fullTxs (peers.get ⟨i, hi⟩).1
             ((filterNew (peers.get ⟨i, hi⟩).2.transactions txs).2.map Prod.snd))) := by
  intro peers
  induction peers with
  | nil => intro idx prop _hnd i hi; simp at hi
  | cons hd tl ih =>
    intro idx prop hnd i hi
    obtain ⟨pid, p⟩ := hd
    have hpair := List.nodup_cons.mp (hnd : (pid :: akeys tl).Nodup)
    have hhd : pid ∉ akeys tl := hpair.1
    have hnd' : (akeys tl).Nodup := hpair.2
    cases i with
    | zero =>
      simp only [List.get]
      by_cases hk : (filterNew p.transactions txs).2 = []
      · simp only [propagateGo, if_pos hk, if_pos hk]
        rw [findSend, List.find?_eq_none]
        intro e he
        have := propagateGo_event_peers maxNumFull txs tl (idx + 1) prop e he
        simp only [beq_iff_eq]
        intro heq
        exact hhd (heq ▸ this)
      · by_cases hidx : idx > maxNumFull
        · have hidx0 : idx + 0 > maxNumFull := by omega
          simp only [propagateGo, if_neg hk, if_pos hidx, if_neg hk, if_pos hidx0]
          simp [findSend, List.find?_cons, eventPeer]
        · have hidx0 : ¬ idx + 0 > maxNumFull := by omega
          simp only [propagateGo, if_neg hk, if_neg hidx, if_neg hk, if_neg hidx0]
          simp [findSend, List.find?_cons, eventPeer]
    | succ j =>
      have hj : j < tl.length := by simpa using hi
      have hmem : (tl.get ⟨j, hj⟩).1 ∈ akeys tl :=
        List.mem_map_of_mem Prod.fst (List.get_mem tl j hj)
      have hne : (tl.get ⟨j, hj⟩).1 ≠ pid := fun heq => hhd (heq ▸ hmem)
      have hgoal := ih (idx + 1) (by exact prop) hnd' j hj
      simp only [List.get]
      by_cases hk : (filterNew p.transactions txs).2 = []
      · simp only [propagateGo, if_pos hk]
        rw [show idx + (j + 1) = (idx + 1) + j by omega]
        exact ih (idx + 1) prop hnd' j hj
      · by_cases hidx : idx > maxNumFull
        · simp only [propagateGo, if_neg hk, if_pos hidx]
          rw [findSend, List.find?_cons_of_neg _ (by simp [eventPeer]; exact fun h => hne h.symm)]
          rw [show idx + (j + 1) = (idx + 1) + j by omega]
          exact ih (idx + 1) _ hnd' j hj
        · simp only [propagateGo, if_neg hk, if_neg hidx]
          rw [findSend, List.find?_cons_of_neg _ (by simp [eventPeer]; exact fun h => hne h.symm)]
          rw [show idx + (j + 1) = (idx + 1) + j by omega]
          exact ih (idx + 1) _ hnd' j hj

theorem foldl_push_mem (k0 : PropagateKind) :
    ∀ (hs : List TxHash) (pr : Propagated) (h : TxHash) (k : PropagateKind),
      k ∈ (hs.foldl (fun p h' => p.push h' k0) pr) h ↔
        k ∈ pr h ∨ (h ∈ hs ∧ k = k0) := by
  intro hs
  induction hs with
  | nil => intro pr h k; simp
  | cons hd tl ih =>
    intro pr h k
    simp only [List.foldl_cons]
    rw [ih]
    constructor
    · rintro (hin | hin)
      · by_cases hh : h = hd
        · subst hh
          simp only [Propagated.push, if_pos rfl] at hin
          rcases List.mem_append.mp hin with hin | hin
          · exact .inl hin
          · exact .inr ⟨by simp, List.mem_singleton.mp hin⟩
        · simp only [Propagated.push, if_neg hh] at hin
          exact .inl hin
      · exact .inr ⟨by simp [hin.1], hin.2⟩
    · rintro (hin | ⟨hmem, rfl⟩)
      · left
        by_cases hh : h = hd
        · subst hh
          simp [Propagated.push, hin]
        · simpa [Propagated.push, hh] using hin
      · rcases List.mem_cons.mp hmem with hh | hh
        · subst hh
          left
          simp [Propagated.push]
        · exact .inr ⟨hh, rfl⟩

theorem propagateGo_prop_mono (maxNumFull : Nat) (txs : List (TxHash × TransactionSigned)) :
    ∀ (peers : List (PeerId × Peer)) (idx : Nat) (prop : Propagated)
      (h : TxHash) (k : PropagateKind), k ∈ prop h →
      k ∈ (propagateGo maxNumFull txs idx prop peers).2.1 h := by
  intro peers
  induction peers with
  | nil => intro idx prop h k hk; simpa [propagateGo] using hk
  | cons hd tl ih =>
    intro idx prop h k hk
    obtain ⟨pid, p⟩ := hd
    by_cases hkept : (filterNew p.transactions txs).2 = []
    · simp only [propagateGo, if_pos hkept]
      exact ih (idx + 1) prop h k hk
    · by_cases hidx : idx > maxNumFull
      · simp only [propagateGo, if_neg hkept, if_pos hidx]
        exact ih (idx + 1) _ h k ((foldl_push_mem _ _ _ _ _).mpr (.inl hk))
      · simp only [propagateGo, if_neg hkept, if_neg hidx]
        exact ih (idx + 1) _ h k ((foldl_push_mem _ _ _ _ _).mpr (.inl hk))

theorem propagateGo_prop_contrib (maxNumFull : Nat) (txs : List (TxHash × TransactionSigned)) :
    ∀ (peers : List (PeerId × Peer)) (idx : Nat) (prop : Propagated)
      (i : Nat) (hi : i < peers.length) (h0 : TxHash),
      h0 ∈ (filterNew (peers.get ⟨i, hi⟩).2.transactions txs).2.map Prod.fst →
      (if idx + i > maxNumFull then PropagateKind.hash (peers.get ⟨i, hi⟩).1
       else PropagateKind.full (peers.get ⟨i, hi⟩).1) ∈
        (propagateGo maxNumFull txs idx prop peers).2.1 h0 := by
  intro peers
  induction peers with
  | nil => intro idx prop i hi; simp at hi
  | cons hd tl ih =>
    intro idx prop i hi h0 hmem
    obtain ⟨pid, p⟩ := hd
    cases i with
    | zero =>
      simp only [List.get] at hmem ⊢
      have hkept : ¬ (filterNew p.transactions txs).2 = [] := by
        intro he
        rw [he] at hmem
        simp at hmem
      by_cases hidx : idx > maxNumFull
      · have hidx0 : idx + 0 > maxNumFull := by omega
        simp only [propagateGo, if_neg hkept, if_pos hidx, if_pos hidx0]
        exact propagateGo_prop_mono maxNumFull txs tl (idx + 1) _ h0 _
          ((foldl_push_mem _ _ _ _ _).mpr (.inr ⟨hmem, rfl⟩))
      · have hidx0 : ¬ idx + 0 > maxNumFull := by omega
        simp only [propagateGo, if_neg hkept, if_neg hidx, if_neg hidx0]
        exact propagateGo_prop_mono maxNumFull txs tl (idx + 1) _ h0 _
          ((foldl_push_mem _ _ _ _ _).mpr (.inr ⟨hmem, rfl⟩))
    | succ j =>
      have hj : j < tl.length := by simpa using hi
      have hstep := ih (idx + 1) (by exact prop) j hj h0 (by simpa using hmem)
      rw [show idx + (j + 1) = (idx + 1) + j by omega]
      simp only [List.get] at hstep ⊢
      by_cases hkept : (filterNew p.transactions txs).2 = []
      · simpa only [propagateGo, if_pos hkept] using hstep
      · by_cases hidx : idx > maxNumFull
        · simp only [propagateGo, if_neg hkept, if_pos hidx]
          exact ih (idx + 1) _ j hj h0 (by simpa using hmem)
        · simp only [propagateGo, if_neg hkept, if_neg hidx]
          exact ih (idx + 1) _ j hj h0 (by simpa using hmem)

end Transactions

-- ===================================================================
-- Claim theorems
-- ===================================================================

open Transactions in
/-- C1 (amended): in `propagate_transactions` with `max_num_full =
floor(sqrt(#peers)) + 1`, every peer whose enumeration index `idx`
satisfies `idx <= max_num_full` and that has at least one newly inserted
hash receives the full transactions (recorded `PropagateKind::Full`), and
every peer with `idx > max_num_full` receives only the hashes (recorded
`PropagateKind::Hash`); with 16 peers and 3 fresh transactions exactly the
first 6 peers by iteration index receive full transactions and the
remaining 10 receive hashes only (the claim's count of 5 and 11 is off by
one: the source sends hashes only when `idx > max_num_full`, so index 5
still receives full transactions). -/
theorem C1_propagate_split :
    (∀ (peers : List (PeerId × Peer)) (txs : List (TxHash × TransactionSigned)),
      (akeys peers).Nodup → ∀ (i : Nat) (hi : i < peers.length),
      (filterNew (peers.get ⟨i, hi⟩).2.transactions txs).2 ≠ [] →
      (i ≤ Nat.sqrt peers.length + 1 →
        findSend (propagateTransactions peers txs).1 (peers.get ⟨i, hi⟩).1 =
          some (SendEvent.fullTxs (peers.get ⟨i, hi⟩).1
            ((filterNew (peers.get ⟨i, hi⟩).2.transactions txs).2.map Prod.snd)) ∧
        ∀ h0 ∈ (filterNew (peers.get ⟨i, hi⟩).2.transactions txs).2.map Prod.fst,
          PropagateKind.full (peers.get ⟨i, hi⟩).1 ∈
            (propagateTransactions peers txs).2.1 h0) ∧
      (Nat.sqrt peers.length + 1 < i →
        findSend (propagateTransactions peers txs).1 (peers.get ⟨i, hi⟩).1 =
          some (SendEvent.txHashes (peers.get ⟨i, hi⟩).1
            ((filterNew (peers.get ⟨i, hi⟩).2.transactions txs).2.map Prod.fst)) ∧
        ∀ h0 ∈ (filterNew (peers.get ⟨i, hi⟩).2.transactions txs).2.map Prod.fst,
          PropagateKind.hash (peers.get ⟨i, hi⟩).1 ∈
            (propagateTransactions peers txs).2.1 h0)) ∧
    countFull (propagateTransactions peers16 txs3).1 = 6 ∧
    countHash (propagateTransactions peers16 txs3).1 = 10 := by
  refine ⟨?_, by decide, by decide⟩
  intro peers txs hnd i hi hkept
  rw [← isqrt_eq_sqrt]
  constructor
  · intro hle
    have hcond : ¬ (0 + i > isqrt peers.length + 1) := by omega
    constructor
    · rw [show (propagateTransactions peers txs).1
          = (propagateGo (isqrt peers.length + 1) txs 0 Propagated.empty peers).1 from rfl]
      rw [propagateGo_find (isqrt peers.length + 1) txs peers 0 Propagated.empty hnd i hi]
      rw [if_neg hkept, if_neg hcond]
    · intro h0 hmem
      have := propagateGo_prop_contrib (isqrt peers.length + 1) txs peers 0
        Propagated.empty i hi h0 hmem
      rw [if_neg hcond] at this
      exact this
  · intro hgt
    have hcond : 0 + i > isqrt peers.length + 1 := by omega
    constructor
    · rw [show (propagateTransactions peers txs).1
          = (propagateGo (isqrt peers.length + 1) txs 0 Propagated.empty peers).1 from rfl]
      rw [propagateGo_find (isqrt peers.length + 1) txs peers 0 Propagated.empty hnd i hi]
      rw [if_neg hkept, if_pos hcond]
    · intro h0 hmem
      have := propagateGo_prop_contrib (isqrt peers.length + 1) txs peers 0
        Propagated.empty i hi h0 hmem
      rw [if_pos hcond] at this
      exact this

open Transactions in
/-- C1, counterexample to the claim as stated: with 16 peers (all with
fresh caches) and 3 fresh transactions, `max_num_full = 5` and the peer at
iteration index 5 receives the full transactions, so 6 peers — not 5 —
receive full sends and only 10 — not 11 — receive hash-only sends. -/
theorem C1_counterexample :
    findSend (propagateTransactions peers16 txs3).1 5 =
      some (SendEvent.fullTxs 5 [⟨100, true⟩, ⟨101, true⟩, ⟨102, true⟩]) ∧
    countFull (propagateTransactions peers16 txs3).1 = 6 ∧
    ¬ countFull (propagateTransactions peers16 txs3).1 = 5 := by
  exact ⟨by decide, by decide, by decide⟩

open Transactions in
/-- Witness for C1 at a concrete instance: peer 3 (index within the full
range) receives the full transactions and peer 9 receives hashes only. -/
theorem C1_propagate_split_witness :
    findSend (propagateTransactions peers16 txs3).1 3 =
      some (SendEvent.fullTxs 3 [⟨100, true⟩, ⟨101, true⟩, ⟨102, true⟩]) ∧
    findSend (propagateTransactions peers16 txs3).1 9 =
      some (SendEvent.txHashes 9 [100, 101, 102]) := by
  have h := C1_propagate_split
  have g3 := h.1 peers16 txs3 (by decide) 3 (by decide) (by decide)
  have g9 := h.1 peers16 txs3 (by decide) 9 (by decide) (by decide)
  exact ⟨(g3.1 (by rw [← isqrt_eq_sqrt]; decide)).1,
    (g9.2 (by rw [← isqrt_eq_sqrt]; decide)).1⟩


theorem aremove_sublist {α β : Type} [DecidableEq α] (k : α) :
    ∀ l : List (α × β), (aremove k l).Sublist l := by
  intro l
  induction l with
  | nil => simp [aremove]
  | cons hd tl ih =>
    by_cases h : hd.1 = k
    · simp only [aremove, if_pos h]
      exact List.sublist_cons_self hd tl
    · simp only [aremove, if_neg h]
      exact List.Sublist.cons₂ hd ih

theorem akeys_aremove_nodup {α β : Type} [DecidableEq α] (k : α)
    (l : List (α × β)) (h : (akeys l).Nodup) : (akeys (aremove k l)).Nodup :=
  List.Nodup.sublist (List.Sublist.map Prod.fst (aremove_sublist k l)) h

namespace Transactions

theorem importGo_inv (peerId : PeerId) :
    ∀ (txs : List TransactionSigned) (cache : LruCache TxHash)
      (byPeers : List (TxHash × List PeerId)) (imports : List TxHash),
      (akeys byPeers).Nodup → imports.Nodup →
      (∀ h, (alookup h byPeers).isSome ↔ h ∈ imports) →
      (akeys (importGo peerId txs cache byPeers imports).2.1).Nodup ∧
        (importGo peerId txs cache byPeers imports).2.2.1.Nodup ∧
        ∀ h, (alookup h (importGo peerId txs cache byPeers imports).2.1).isSome ↔
          h ∈ (importGo peerId txs cache byPeers imports).2.2.1 := by
  intro txs
  induction txs with
  | nil => intro cache byPeers imports h1 h2 h3; exact ⟨h1, h2, h3⟩
  | cons tx rest ih =>
    intro cache byPeers imports h1 h2 h3
    by_cases hrec : tx.recoverable
    · cases hlk : alookup tx.hash byPeers with
      | some l =>
        simp only [importGo, if_pos hrec, hlk]
        apply ih
        · exact akeys_aset_nodup tx.hash (l ++ [peerId]) byPeers h1
        · exact h2
        · intro h
          by_cases hh : h = tx.hash
          · subst hh
            rw [alookup_aset_self]
            simp only [Option.isSome_some, true_iff]
            exact (h3 tx.hash).mp (by simp [hlk])
          · rw [alookup_aset_ne tx.hash h _ (fun he => hh he.symm)]
            exact h3 h
      | none =>
        simp only [importGo, if_pos hrec, hlk]
        have hnotmem : tx.hash ∉ imports := fun hm =>
          by simpa [hlk] using (h3 tx.hash).mpr hm
        apply ih
        · exact akeys_aset_nodup tx.hash [peerId] byPeers h1
        · simp [List.nodup_append, h2, hnotmem]
        · intro h
          by_cases hh : h = tx.hash
          · subst hh
            rw [alookup_aset_self]
            simp
          · rw [alookup_aset_ne tx.hash h _ (fun he => hh he.symm)]
            rw [h3 h]
            simp [List.mem_append, hh]
    · simp only [importGo, if_neg hrec]
      exact ih cache byPeers imports h1 h2 h3

theorem importTransactions_inv (m : TransactionsManager) (peerId : PeerId)
    (txs : List TransactionSigned) (h : Inv m) :
    Inv (importTransactions m peerId txs).1 := by
  obtain ⟨h1, h2, h3⟩ := h
  cases hp : alookup peerId m.peers with
  | none => simpa [importTransactions, hp] using ⟨h1, h2, h3⟩
  | some peer =>
    simp only [importTransactions, hp]
    exact importGo_inv peerId txs peer.transactions m.transactionsByPeers
      m.poolImports h1 h2 h3

theorem step_inv (m : TransactionsManager) (e : Event) (h : Inv m) :
    Inv (step m e).1 := by
  obtain ⟨h1, h2, h3⟩ := h
  cases e with
  | sessionEstablished p => exact ⟨h1, h2, h3⟩
  | sessionClosed p => exact ⟨h1, h2, h3⟩
  | incomingTransactions p txs =>
    exact importTransactions_inv m p txs ⟨h1, h2, h3⟩
  | goodImport h0 =>
    by_cases hm : h0 ∈ m.poolImports
    · simp only [step, if_pos hm, onGoodImport]
      refine ⟨akeys_aremove_nodup h0 _ h1, h2.erase h0, ?_⟩
      intro h
      by_cases hh : h = h0
      · subst hh
        rw [alookup_aremove_self h m.transactionsByPeers h1]
        simp [h2.mem_erase_iff]
      · rw [alookup_aremove_ne h0 h (fun he => hh he.symm)]
        rw [h3 h]
        simp [h2.mem_erase_iff, hh]
    · simpa [step, hm] using ⟨h1, h2, h3⟩
  | badImport h0 =>
    by_cases hm : h0 ∈ m.poolImports
    · have hsome : (alookup h0 m.transactionsByPeers).isSome := (h3 h0).mpr hm
      cases hlk : alookup h0 m.transactionsByPeers with
      | none => simp [hlk] at hsome
      | some l =>
        simp only [step, if_pos hm, onBadImport, hlk]
        refine ⟨akeys_aremove_nodup h0 _ h1, h2.erase h0, ?_⟩
        intro h
        by_cases hh : h = h0
        · subst hh
          rw [alookup_aremove_self h m.transactionsByPeers h1]
          simp [h2.mem_erase_iff]
        · rw [alookup_aremove_ne h0 h (fun he => hh he.symm)]
          rw [h3 h]
          simp [h2.mem_erase_iff, hh]
    · simpa [step, hm] using ⟨h1, h2, h3⟩

theorem runFrom_inv : ∀ (events : List Event) (m : TransactionsManager),
    Inv m → Inv (runFrom m events) := by
  intro events
  induction events with
  | nil => intro m h; exact h
  | cons e rest ih =>
    intro m h
    exact ih (step m e).1 (step_inv m e h)

theorem run_inv (events : List Event) : Inv (run events) :=
  runFrom_inv events initManager ⟨by simp [initManager, akeys], by simp [initManager], by
    intro h; simp [initManager, alookup]⟩

end Transactions

namespace Transactions

theorem count_map_badTransactions (l : List PeerId) (p : PeerId) :
    (l.map ReputationEvent.badTransactions).count (ReputationEvent.badTransactions p)
      = l.count p :=
  List.count_map_of_injective l ReputationEvent.badTransactions
    (fun a b hab => by cases hab; rfl) p

end Transactions

open Transactions in
/-- C4: a transaction hash is a key of `transactions_by_peers` iff
an import future for it is in flight; the first novel, successfully
recovered arrival of a hash from an active peer creates exactly
one import future and the entry `[that peer]`; each later arrival
while the entry exists appends the peer and creates no new future;
two peers `A` and `B` sending the same hash `T` yield one import
future and `transactions_by_peers[T] = [A, B]`. -/
theorem C4_dedupe_invariant :
    (∀ (events : List Event) (h : TxHash),
      (alookup h (run events).transactionsByPeers).isSome ↔
        h ∈ (run events).poolImports) ∧
    (∀ (m : TransactionsManager) (peerId : PeerId) (tx : TransactionSigned)
       (peer : Peer), alookup peerId m.peers = some peer → tx.recoverable = true →
       (alookup tx.hash m.transactionsByPeers = none →
         (importTransactions m peerId [tx]).1.poolImports
             = m.poolImports ++ [tx.hash] ∧
           alookup tx.hash (importTransactions m peerId [tx]).1.transactionsByPeers
             = some [peerId]) ∧
       (∀ l, alookup tx.hash m.transactionsByPeers = some l →
         (importTransactions m peerId [tx]).1.poolImports = m.poolImports ∧
           alookup tx.hash (importTransactions m peerId [tx]).1.transactionsByPeers
             = some (l ++ [peerId]))) ∧
    ((run scenarioAB).poolImports = [100] ∧
      alookup 100 (run scenarioAB).transactionsByPeers = some [1, 2]) := by
  refine ⟨?_, ?_, by decide, by decide⟩
  · intro events h
    exact (run_inv events).2.2 h
  · intro m peerId tx peer hp hrec
    constructor
    · intro hlk
      simp only [importTransactions, hp, importGo, if_pos hrec, hlk]
      simp [alookup_aset_self]
    · intro l hlk
      simp only [importTransactions, hp, importGo, if_pos hrec, hlk]
      simp [alookup_aset_self]

open Transactions in
/-- Witness for C4 at a concrete state: after peer 1 sent the novel hash
100, a second arrival of 100 from peer 2 appends peer 2 and creates no
new import. -/
theorem C4_dedupe_invariant_witness :
    (runFrom initManager [Event.sessionEstablished 1,
        Event.incomingTransactions 1 [⟨100, true⟩]]).poolImports.length = 1 ∧
    (importTransactions (runFrom initManager [Event.sessionEstablished 1,
        Event.sessionEstablished 2,
        Event.incomingTransactions 1 [⟨100, true⟩]]) 2
        [⟨100, true⟩]).1.poolImports = [100] ∧
    alookup 100 (importTransactions (runFrom initManager
        [Event.sessionEstablished 1, Event.sessionEstablished 2,
         Event.incomingTransactions 1 [⟨100, true⟩]]) 2
        [⟨100, true⟩]).1.transactionsByPeers = some [1, 2] := by
  refine ⟨by decide, ?_, ?_⟩
  · have h := (C4_dedupe_invariant.2.1 (runFrom initManager
      [Event.sessionEstablished 1, Event.sessionEstablished 2,
       Event.incomingTransactions 1 [⟨100, true⟩]]) 2 ⟨100, true⟩
      ⟨LruCache.new TxHash PEER_TRANSACTION_CACHE_LIMIT⟩ (by decide) rfl).2
      [1] (by decide)
    rw [h.1]
    decide
  · exact ((C4_dedupe_invariant.2.1 (runFrom initManager
      [Event.sessionEstablished 1, Event.sessionEstablished 2,
       Event.incomingTransactions 1 [⟨100, true⟩]]) 2 ⟨100, true⟩
      ⟨LruCache.new TxHash PEER_TRANSACTION_CACHE_LIMIT⟩ (by decide) rfl).2
      [1] (by decide)).2

open Transactions in
/-- C5 (amended): when a pool import of a hash completes with failure the
`transactions_by_peers` entry is removed and the peers in the removed
list are penalised in order, one `BadTransactions` report per list entry
— so a peer is penalised once per time it forwarded the hash, and
exactly once when the list has no duplicates; on success the entry is
removed and nobody is penalised. -/
theorem C5_bad_import_penalties :
    (∀ (m : TransactionsManager) (h : TxHash) (l : List PeerId),
      h ∈ m.poolImports → alookup h m.transactionsByPeers = some l →
      (step m (Event.badImport h)).1.transactionsByPeers
          = aremove h m.transactionsByPeers ∧
        (step m (Event.badImport h)).2 = l.map ReputationEvent.badTransactions ∧
        (∀ p : PeerId, (step m (Event.badImport h)).2.count
            (ReputationEvent.badTransactions p) = l.count p) ∧
        (l.Nodup → ∀ p ∈ l, (step m (Event.badImport h)).2.count
            (ReputationEvent.badTransactions p) = 1)) ∧
    (∀ (m : TransactionsManager) (h : TxHash), h ∈ m.poolImports →
      (step m (Event.goodImport h)).1.transactionsByPeers
          = aremove h m.transactionsByPeers ∧
        (step m (Event.goodImport h)).2 = []) := by
  constructor
  · intro m h l hm hlk
    have hsteps : step m (Event.badImport h)
        = (⟨aremove h m.transactionsByPeers, m.poolImports.erase h, m.peers⟩,
           l.map ReputationEvent.badTransactions) := by
      simp only [step, if_pos hm, onBadImport]
      simp [hlk]
    refine ⟨by rw [hsteps], by rw [hsteps], ?_, ?_⟩
    · intro p
      rw [hsteps]
      exact count_map_badTransactions l p
    · intro hnd p hp
      rw [hsteps]
      rw [count_map_badTransactions l p]
      exact List.count_eq_one_of_mem hnd hp
  · intro m h hm
    simp [step, hm, onGoodImport]

open Transactions in
/-- Witness for C5: peers 1 and 2 each forwarded hash 100 once; a
failed import penalises each exactly once and removes the entry. -/
theorem C5_bad_import_penalties_witness :
    (step (run scenarioAB) (Event.badImport 100)).2
        = [ReputationEvent.badTransactions 1, ReputationEvent.badTransactions 2] ∧
    alookup 100 (step (run scenarioAB) (Event.badImport 100)).1.transactionsByPeers
        = none := by
  have h := C5_bad_import_penalties.1 (run scenarioAB) 100 [1, 2]
    (by decide) (by decide)
  constructor
  · rw [h.2.1]
    decide
  · rw [h.1]
    decide

open Transactions in
/-- C5, counterexample to the claim as stated: peer 1 sent the same
transaction (hash 100) twice in one message, so
`transactions_by_peers[100] = [1, 1]` and the failed import penalises
peer 1 twice, not exactly once. -/
theorem C5_counterexample :
    alookup 100 (run [Event.sessionEstablished 1,
        Event.incomingTransactions 1 [⟨100, true⟩, ⟨100, true⟩]]).transactionsByPeers
      = some [1, 1] ∧
    (step (run [Event.sessionEstablished 1,
        Event.incomingTransactions 1 [⟨100, true⟩, ⟨100, true⟩]])
        (Event.badImport 100)).2.count (ReputationEvent.badTransactions 1) = 2 ∧
    ¬ (step (run [Event.sessionEstablished 1,
        Event.incomingTransactions 1 [⟨100, true⟩, ⟨100, true⟩]])
        (Event.badImport 100)).2.count (ReputationEvent.badTransactions 1) = 1 := by
  exact ⟨by decide, by decide, by decide⟩

open Transactions in
/-- C10: `import_transactions` from a peer that is not in `peers` leaves
the whole state unchanged and issues no reputation change, even when the
list is non-empty and contains transactions that fail recovery. -/
theorem C10_import_unknown_peer :
    ∀ (m : TransactionsManager) (peerId : PeerId)
      (transactions : List TransactionSigned),
      alookup peerId m.peers = none →
      importTransactions m peerId transactions = (m, []) := by
  intro m peerId txs h
  simp [importTransactions, h]

open Transactions in
/-- Witness for C10: an unknown peer sending one malformed and one valid
transaction changes nothing. -/
theorem C10_import_unknown_peer_witness :
    importTransactions initManager 7 [⟨9, false⟩, ⟨11, true⟩]
      = (initManager, []) :=
  C10_import_unknown_peer initManager 7 [⟨9, false⟩, ⟨11, true⟩] (by decide)

namespace State

theorem alookup_cons_self {α β : Type} [DecidableEq α] (k : α) (v : β)
    (t : List (α × β)) : alookup k ((k, v) :: t) = some v := by
  simp [alookup]

theorem announceGo_actions (num : Nat) (hash : H256) (number : Nat) :
    ∀ (peers : List (PeerId × ActivePeer)) (count : Nat) (f : StateFetcher),
      count < num →
      (announceGo num hash number count f peers).1 =
        ((peers.filter (fun pc => !pc.2.blocks.contains hash)).take (num - count)).map
          (fun pc => StateAction.newBlock pc.1 hash number) := by
  intro peers
  induction peers with
  | nil => intro count f _; simp [announceGo]
  | cons hd tl ih =>
    intro count f hcount
    obtain ⟨pid, p⟩ := hd
    by_cases hc : p.blocks.contains hash
    · simp only [announceGo, if_pos hc, List.filter_cons]
      rw [ih count f hcount]
      simp [hc]
    · by_cases hbreak : count + 1 ≥ num
      · have hnum : num - count = 1 := by omega
        simp only [announceGo, if_neg hc, if_pos hcount, if_pos hbreak,
          List.filter_cons, hnum]
        simp [hc]
      · have hnum : num - count = (num - (count + 1)) + 1 := by omega
        simp only [announceGo, if_neg hc, if_pos hcount, if_neg hbreak,
          List.filter_cons, hnum]
        rw [ih (count + 1) _ (by omega)]
        simp [hc]

theorem announceGo_keys (num : Nat) (hash : H256) (number : Nat) :
    ∀ (peers : List (PeerId × ActivePeer)) (count : Nat) (f : StateFetcher),
      akeys (announceGo num hash number count f peers).2.2 = akeys peers := by
  intro peers
  induction peers with
  | nil => intro count f; simp [announceGo]
  | cons hd tl ih =>
    intro count f
    obtain ⟨pid, p⟩ := hd
    by_cases hc : p.blocks.contains hash
    · simp only [announceGo, if_pos hc, akeys, List.map_cons]
      rw [show List.map Prod.fst (announceGo num hash number count f tl).2.2 = akeys (announceGo num hash number count f tl).2.2 from rfl, ih count f]
      rfl
    · by_cases hcount : count < num
      · by_cases hbreak : count + 1 ≥ num
        · simp [announceGo, if_neg hc, if_pos hcount, if_pos hbreak, akeys]
        · simp only [announceGo, if_neg hc, if_pos hcount, if_neg hbreak, akeys,
            List.map_cons]
          rw [show List.map Prod.fst (announceGo num hash number (count+1) (f.updatePeerBlock pid hash number).2 tl).2.2 = akeys (announceGo num hash number (count+1) (f.updatePeerBlock pid hash number).2 tl).2.2 from rfl, ih (count + 1)]
          rfl
      · simp [announceGo, if_neg hc, hcount, akeys]

theorem announceGo_inserted (num : Nat) (hash : H256) (number : Nat) :
    ∀ (peers : List (PeerId × ActivePeer)) (count : Nat) (f : StateFetcher),
      (akeys peers).Nodup → count < num →
      ∀ pc ∈ (peers.filter (fun pc => !pc.2.blocks.contains hash)).take (num - count),
        1 ≤ pc.2.blocks.cap →
        ∃ p', alookup pc.1 (announceGo num hash number count f peers).2.2 = some p' ∧
          p'.blocks.contains hash = true := by
  intro peers
  induction peers with
  | nil => intro count f _ _ pc hpc; simp at hpc
  | cons hd tl ih =>
    intro count f hnd hcount pc hpc hcap
    obtain ⟨pid, p⟩ := hd
    have hpair := List.nodup_cons.mp (hnd : (pid :: akeys tl).Nodup)
    by_cases hc : p.blocks.contains hash
    · simp only [List.filter_cons] at hpc
      rw [hc] at hpc
      simp only [Bool.not_true] at hpc
      rw [if_neg (by simp)] at hpc
      have hmem : pc ∈ tl := List.mem_of_mem_filter (List.mem_of_mem_take hpc)
      have hkey : pc.1 ∈ akeys tl := List.mem_map_of_mem Prod.fst hmem
      have hne : pc.1 ≠ pid := fun he => hpair.1 (he ▸ hkey)
      simp only [announceGo, if_pos hc]
      simp only [alookup]
      rw [if_neg (fun he => hne he.symm)]
      exact ih count f hpair.2 hcount pc hpc hcap
    · have hcf : p.blocks.contains hash = false := by simpa using hc
      simp only [List.filter_cons] at hpc
      rw [hcf] at hpc
      simp only [Bool.not_false] at hpc
      simp only [ite_true] at hpc
      by_cases hbreak : count + 1 ≥ num
      · have hnum : num - count = 1 := by omega
        rw [hnum] at hpc
        simp only [List.take_succ_cons, List.take_zero] at hpc
        have hpc' : pc = (pid, p) := by simpa using hpc
        subst hpc'
        simp only [announceGo, if_neg hc, if_pos hcount, if_pos hbreak]
        exact ⟨_, alookup_cons_self pid _ _,
          LruCache.contains_insert_self p.blocks hash hcap⟩
      · have hnum : num - count = (num - (count + 1)) + 1 := by omega
        rw [hnum] at hpc
        simp only [List.take_succ_cons, List.mem_cons] at hpc
        rcases hpc with hpc | hpc
        · subst hpc
          simp only [announceGo, if_neg hc, if_pos hcount, if_neg hbreak]
          exact ⟨_, alookup_cons_self pid _ _,
            LruCache.contains_insert_self p.blocks hash hcap⟩
        · have hmem : pc ∈ tl := List.mem_of_mem_filter (List.mem_of_mem_take hpc)
          have hkey : pc.1 ∈ akeys tl := List.mem_map_of_mem Prod.fst hmem
          have hne : pc.1 ≠ pid := fun he => hpair.1 (he ▸ hkey)
          simp only [announceGo, if_neg hc, if_pos hcount, if_neg hbreak]
          simp only [alookup]
          rw [if_neg (fun he => hne he.symm)]
          exact ih (count + 1) _ hpair.2 (by omega) pc hpc hcap

theorem announceHashGo_actions (hash : H256) (number : Nat) :
    ∀ (peers : List (PeerId × ActivePeer)) (f : StateFetcher),
      (announceHashGo hash number f peers).1 =
        (peers.filter (fun pc => !pc.2.blocks.contains hash)).map
          (fun pc => StateAction.newBlockHashes pc.1 [(hash, number)]) := by
  intro peers
  induction peers with
  | nil => intro f; simp [announceHashGo]
  | cons hd tl ih =>
    intro f
    obtain ⟨pid, p⟩ := hd
    by_cases hc : p.blocks.contains hash
    · simp only [announceHashGo, if_pos hc, List.filter_cons]
      rw [ih f]
      simp [hc]
    · simp only [announceHashGo, if_neg hc, List.filter_cons]
      rw [ih]
      simp [hc]

theorem announceHashGo_blocks (hash : H256) (number : Nat) :
    ∀ (peers : List (PeerId × ActivePeer)) (f : StateFetcher),
      (announceHashGo hash number f peers).2.2.map (fun pc => (pc.1, pc.2.blocks))
        = peers.map (fun pc => (pc.1, pc.2.blocks)) := by
  intro peers
  induction peers with
  | nil => intro f; simp [announceHashGo]
  | cons hd tl ih =>
    intro f
    obtain ⟨pid, p⟩ := hd
    by_cases hc : p.blocks.contains hash
    · simp only [announceHashGo, if_pos hc, List.map_cons]
      rw [ih f]
    · simp only [announceHashGo, if_neg hc, List.map_cons]
      rw [ih]

end State

namespace State

theorem pollPeers_id (outcome : PeerId → PollOutcome) (p : PeerId)
    (hothers : ∀ q, q ≠ p → outcome q = PollOutcome.stillPending) :
    ∀ peers : List (PeerId × ActivePeer), (∀ pc ∈ peers, pc.1 ≠ p) →
      pollPeers outcome peers = (peers, [], []) := by
  intro peers
  induction peers with
  | nil => intro _; rfl
  | cons hd tl ih =>
    intro hne
    obtain ⟨pid, q⟩ := hd
    have hrest := ih (fun pc hpc => hne pc (by simp [hpc]))
    have hpid : pid ≠ p := hne (pid, q) (by simp)
    cases hq : q.pendingResponse with
    | none => simp [pollPeers, hq, hrest]
    | some r => simp [pollPeers, hq, hothers pid hpid, hrest]

theorem pollPeers_env (outcome : PeerId → PollOutcome) (p : PeerId)
    (houtp : outcome p = PollOutcome.readyErr)
    (hothers : ∀ q, q ≠ p → outcome q = PollOutcome.stillPending) :
    ∀ peers : List (PeerId × ActivePeer), (akeys peers).Nodup →
      ∀ (peer : ActivePeer) (r : Nat), alookup p peers = some peer →
        peer.pendingResponse = some r →
        (pollPeers outcome peers).2.1 = [p] ∧
          (pollPeers outcome peers).2.2 = [] ∧
          aremove p (pollPeers outcome peers).1 = aremove p peers := by
  intro peers
  induction peers with
  | nil => intro _ peer r hlk _; simp [alookup] at hlk
  | cons hd tl ih =>
    intro hnd peer r hlk hpr
    obtain ⟨pid, q⟩ := hd
    have hpair := List.nodup_cons.mp (hnd : (pid :: akeys tl).Nodup)
    by_cases hp : pid = p
    · subst hp
      have hq : q = peer := by
        rw [alookup, if_pos rfl] at hlk
        exact Option.some.inj hlk
      subst hq
      have htl : ∀ pc ∈ tl, pc.1 ≠ pid := by
        intro pc hpc heq
        have hkey := List.mem_map_of_mem Prod.fst hpc
        exact hpair.1 (heq ▸ hkey)
      have hid := pollPeers_id outcome pid hothers tl htl
      simp only [pollPeers, hpr, houtp, hid]
      refine ⟨by simp, by simp, by simp [aremove]⟩
    · have hlk' : alookup p tl = some peer := by
        rw [alookup, if_neg hp] at hlk
        exact hlk
      have hrec := ih hpair.2 peer r hlk' hpr
      have hstep : pollPeers outcome ((pid, q) :: tl)
          = ((pid, q) :: (pollPeers outcome tl).1,
             (pollPeers outcome tl).2.1, (pollPeers outcome tl).2.2) := by
        cases hq : q.pendingResponse with
        | none => simp [pollPeers, hq]
        | some r' => simp [pollPeers, hq, hothers pid hp]
      rw [hstep]
      refine ⟨hrec.1, hrec.2.1, ?_⟩
      simp only [aremove, if_neg hp]
      rw [hrec.2.2]

end State

open State in
/-- C9: when, during `NetworkState::poll`, a peer's pending response
channel yields `Ready(Err)` (and every other pending channel stays
pending), the peer is removed from `active_peers` but the `StateFetcher`
is not informed and no response is buffered; every other peer's entry is
unchanged.  By contrast, `on_session_closed` both removes the peer and
informs the `StateFetcher`. -/
theorem C9_poll_err_disconnect :
    ∀ (st : NetworkState) (p : PeerId) (outcome : PeerId → PollOutcome)
      (peer : ActivePeer) (r : Nat),
      (akeys st.activePeers).Nodup →
      alookup p st.activePeers = some peer →
      peer.pendingResponse = some r →
      outcome p = PollOutcome.readyErr →
      (∀ q, q ≠ p → outcome q = PollOutcome.stillPending) →
      (pollResponsesPhase st outcome).1.activePeers = aremove p st.activePeers ∧
        (pollResponsesPhase st outcome).1.stateFetcher = st.stateFetcher ∧
        (pollResponsesPhase st outcome).2 = [] ∧
        (∀ q, q ≠ p → alookup q (pollResponsesPhase st outcome).1.activePeers
            = alookup q st.activePeers) ∧
        (onSessionClosed st p).activePeers = aremove p st.activePeers ∧
        (onSessionClosed st p).stateFetcher.peers = aremove p st.stateFetcher.peers := by
  intro st p outcome peer r hnd hlk hpr houtp hothers
  have henv := pollPeers_env outcome p houtp hothers st.activePeers hnd peer r hlk hpr
  have hphase1 : (pollResponsesPhase st outcome).1.activePeers
      = aremove p st.activePeers := by
    show ((pollPeers outcome st.activePeers).2.1.foldl (fun l q => aremove q l)
        (pollPeers outcome st.activePeers).1) = aremove p st.activePeers
    rw [henv.1]
    simp only [List.foldl_cons, List.foldl_nil]
    exact henv.2.2
  refine ⟨hphase1, rfl, henv.2.1, ?_, rfl, rfl⟩
  intro q hq
  rw [hphase1]
  exact alookup_aremove_ne p q (fun he => hq he.symm) st.activePeers

open State in
/-- Witness for C9: two active peers, peer 1's response channel errors; the
phase removes peer 1 only and leaves the fetcher untouched. -/
theorem C9_poll_err_disconnect_witness :
    (pollResponsesPhase stC9 outC9).1.activePeers
        = [(2, ⟨0, 0, none, LruCache.new H256 PEER_BLOCK_CACHE_LIMIT⟩)] ∧
    (pollResponsesPhase stC9 outC9).1.stateFetcher = stC9.stateFetcher ∧
    (onSessionClosed stC9 1).stateFetcher.peers = [(2, (0, 0))] := by
  have h := C9_poll_err_disconnect stC9 1 outC9
    ⟨0, 0, some 5, LruCache.new H256 PEER_BLOCK_CACHE_LIMIT⟩ 5
    (by decide) (by decide) rfl rfl
    (fun q hq => by simp [outC9, hq])
  refine ⟨?_, h.2.1, ?_⟩
  · rw [h.1]
    decide
  · rw [h.2.2.2.2.2]
    decide

open State in
/-- C2: for every peer set and block hash, one call to
`announce_new_block` enqueues exactly
`min(#eligible, floor(sqrt(#peers)) + 1)` `NewBlock` actions — the
enqueued suffix is exactly the first `floor(sqrt(#peers)) + 1` peers (in
iteration order) whose `blocks` cache lacks the hash — each targeting a
distinct peer that lacked the hash, and the hash is inserted into each
selected peer's cache. -/
theorem C2_announce_new_block :
    ∀ (st : NetworkState) (msg : NewBlockMessage),
      (akeys st.activePeers).Nodup →
      (∀ pc ∈ st.activePeers, 1 ≤ pc.2.blocks.cap) →
      ((announceNewBlock st msg).queuedMessages
          = st.queuedMessages ++
            ((st.activePeers.filter (fun pc => !pc.2.blocks.contains msg.hash)).take
                (Nat.sqrt st.activePeers.length + 1)).map
              (fun pc => StateAction.newBlock pc.1 msg.hash msg.number)) ∧
      ((((st.activePeers.filter (fun pc => !pc.2.blocks.contains msg.hash)).take
              (Nat.sqrt st.activePeers.length + 1)).map
            (fun pc => StateAction.newBlock pc.1 msg.hash msg.number)).length
          = min ((st.activePeers.filter
                (fun pc => !pc.2.blocks.contains msg.hash)).length)
              (Nat.sqrt st.activePeers.length + 1)) ∧
      ((((st.activePeers.filter (fun pc => !pc.2.blocks.contains msg.hash)).take
            (Nat.sqrt st.activePeers.length + 1)).map Prod.fst).Nodup) ∧
      (∀ pc ∈ (st.activePeers.filter (fun pc => !pc.2.blocks.contains msg.hash)).take
            (Nat.sqrt st.activePeers.length + 1),
        pc.2.blocks.contains msg.hash = false ∧
          ∃ p', alookup pc.1 (announceNewBlock st msg).activePeers = some p' ∧
            p'.blocks.contains msg.hash = true) := by
  intro st msg hnd hcap
  rw [← isqrt_eq_sqrt]
  have hq : (announceNewBlock st msg).queuedMessages
      = st.queuedMessages ++ (announceGo (isqrt st.activePeers.length + 1)
          msg.hash msg.number 0 st.stateFetcher st.activePeers).1 := rfl
  have hp : (announceNewBlock st msg).activePeers
      = (announceGo (isqrt st.activePeers.length + 1)
          msg.hash msg.number 0 st.stateFetcher st.activePeers).2.2 := rfl
  refine ⟨?_, ?_, ?_, ?_⟩
  · rw [hq, announceGo_actions (isqrt st.activePeers.length + 1) msg.hash msg.number
      st.activePeers 0 st.stateFetcher (by omega)]
    rw [Nat.sub_zero]
  · rw [List.length_map, List.length_take, Nat.min_comm]
  · apply List.Nodup.sublist _ hnd
    apply List.Sublist.map
    exact ((List.take_sublist _ _).trans (List.filter_sublist _))
  · intro pc hpc
    have hfil := List.mem_filter.mp (List.mem_of_mem_take hpc)
    refine ⟨by simpa using hfil.2, ?_⟩
    rw [hp]
    have := announceGo_inserted (isqrt st.activePeers.length + 1) msg.hash msg.number
      st.activePeers 0 st.stateFetcher hnd (by omega) pc
      (by rwa [Nat.sub_zero]) (hcap pc hfil.1)
    exact this

open State in
/-- Witness for C2: nine fresh peers, `num_propagate = 4`; the announce
queues exactly 4 `NewBlock` actions for peers 0-3, and those peers' caches
now contain the hash. -/
theorem C2_announce_new_block_witness :
    (announceNewBlock st9 msg9).queuedMessages
        = [StateAction.newBlock 0 77 100, StateAction.newBlock 1 77 100,
           StateAction.newBlock 2 77 100, StateAction.newBlock 3 77 100] ∧
    (∃ p', alookup 0 (announceNewBlock st9 msg9).activePeers = some p' ∧
      p'.blocks.contains (77 : H256) = true) := by
  have h := C2_announce_new_block st9 msg9 (by decide) (by decide)
  constructor
  · rw [h.1, ← isqrt_eq_sqrt]
    decide
  · have h4 := h.2.2.2 (0, freshPeer) (by rw [← isqrt_eq_sqrt]; decide)
    exact h4.2

open State in
/-- C3: `announce_new_block_hash` enqueues a `NewBlockHashes` action for
exactly the active peers whose `blocks` cache lacks the hash, and no
peer's `blocks` cache is modified (the hash is not inserted); after
`announce_new_block` over 9 fresh peers (which serves 4 of them), a
subsequent `announce_new_block_hash` enqueues exactly 5 `NewBlockHashes`
actions. -/
theorem C3_announce_new_block_hash :
    (∀ (st : NetworkState) (msg : NewBlockMessage),
      (announceNewBlockHash st msg).queuedMessages
          = st.queuedMessages ++
            (st.activePeers.filter (fun pc => !pc.2.blocks.contains msg.hash)).map
              (fun pc => StateAction.newBlockHashes pc.1 [(msg.hash, msg.number)]) ∧
      (announceNewBlockHash st msg).activePeers.map (fun pc => (pc.1, pc.2.blocks))
          = st.activePeers.map (fun pc => (pc.1, pc.2.blocks))) ∧
    countNewBlock (announceNewBlock st9 msg9).queuedMessages = 4 ∧
    countNewBlockHashes
        (announceNewBlockHash (announceNewBlock st9 msg9) msg9).queuedMessages = 5 := by
  refine ⟨?_, by decide, by decide⟩
  intro st msg
  constructor
  · have hq : (announceNewBlockHash st msg).queuedMessages
        = st.queuedMessages ++
          (announceHashGo msg.hash msg.number st.stateFetcher st.activePeers).1 := rfl
    rw [hq, announceHashGo_actions msg.hash msg.number st.activePeers st.stateFetcher]
  · exact announceHashGo_blocks msg.hash msg.number st.activePeers st.stateFetcher

open State in
/-- C8: `on_session_activated` (peer not already active) inserts an
`ActivePeer` whose `best_hash` is `status.blockhash`, with an empty
blocks cache and no pending response, and registers the peer with the
`StateFetcher` under the client's block number for that hash, or 0 when
the client does not know it. -/
theorem C8_session_activated :
    ∀ (st : NetworkState) (peer : PeerId) (capabilities : Nat) (status : Status),
      alookup peer st.activePeers = none →
      alookup peer (onSessionActivated st peer capabilities status).activePeers
          = some ⟨status.blockhash, capabilities, none,
              LruCache.new H256 PEER_BLOCK_CACHE_LIMIT⟩ ∧
      alookup peer (onSessionActivated st peer capabilities status).stateFetcher.peers
          = some (status.blockhash, (st.client status.blockhash).getD 0) := by
  intro st peer caps status _h
  exact ⟨alookup_aset_self peer _ st.activePeers,
    alookup_aset_self peer _ st.stateFetcher.peers⟩

open State in
/-- Witness for C8: activating peer 42 with best hash 55 on a client that
knows no blocks registers the peer with block number 0 and an empty
cache. -/
theorem C8_session_activated_witness :
    alookup 42 (onSessionActivated st9 42 3 ⟨55⟩).activePeers
        = some ⟨55, 3, none, LruCache.new H256 PEER_BLOCK_CACHE_LIMIT⟩ ∧
    alookup 42 (onSessionActivated st9 42 3 ⟨55⟩).stateFetcher.peers
        = some (55, 0) := by
  have h := C8_session_activated st9 42 3 ⟨55⟩ (by decide)
  exact ⟨h.1, h.2⟩

open Primitives in
/-- C6 (amended): for every well-formed `NodeRecord`, decoding the RLP
encoding yields the record back — identically when the address is IPv4 or
an IPv6 that is not IPv4-compatible/IPv4-mapped; for a compatible or
mapped IPv6 address the decoder returns the record with the embedded IPv4
address instead (the `From<Octets> for IpAddr` conversion). -/
theorem C6_rlp_roundtrip :
    ∀ r : NodeRecord, r.WF →
      decodeNodeRecord (encodeNodeRecord r) = some (normalizeRecord r, []) ∧
      (¬ isV4CompatOrMapped r.address → normalizeRecord r = r) := by
  intro r h
  refine ⟨?_, normalizeRecord_eq_self r⟩
  have hd := decodeNodeRecord_enc r h []
  simpa using hd

open Primitives in
/-- Witness for C6: a concrete IPv4 record round-trips identically. -/
theorem C6_rlp_roundtrip_witness :
    decodeNodeRecord (encodeNodeRecord sampleRecord) = some (sampleRecord, []) := by
  have h := C6_rlp_roundtrip sampleRecord (by decide)
  rw [h.1, h.2 (by decide)]

open Primitives in
/-- C6, counterexample to the claim as stated: encoding and then decoding
the record with IPv4-mapped IPv6 address `::ffff:1.2.3.4` yields the IPv4
form `1.2.3.4`, not the original record, so encode-then-decode is not the
identity for every IPv6 address. -/
theorem C6_counterexample :
    decodeNodeRecord (encodeNodeRecord mappedRecord)
        = some ({ mappedRecord with address := .v4 [1, 2, 3, 4] }, []) ∧
    decodeNodeRecord (encodeNodeRecord mappedRecord) ≠ some (mappedRecord, []) := by
  exact ⟨by decide, by decide⟩

namespace Primitives

theorem digitChar_isDigit (n : Nat) : (digitChar n).isDigit = true := by
  match n with
  | 0 | 1 | 2 | 3 | 4 | 5 | 6 | 7 | 8 => rfl
  | m + 9 => rfl

theorem dval_digitChar (n : Nat) (h : n < 10) : dval (digitChar n) = n := by
  have hb : ∀ m : Nat, m < 10 → dval (digitChar m) = m := by decide
  exact hb n h


theorem decVal_append (l : List Char) (d : Char) :
    decVal (l ++ [d]) = decVal l * 10 + dval d := by
  simp [decVal, List.foldl_append]

theorem natDecGo_spec : ∀ (fuel n : Nat), n < fuel →
    (natDecGo fuel n).all Char.isDigit = true ∧ natDecGo fuel n ≠ [] ∧
      decVal (natDecGo fuel n) = n := by
  intro fuel
  induction fuel with
  | zero => intro n h; omega
  | succ f ih =>
    intro n h
    by_cases h10 : n < 10
    · simp only [natDecGo, if_pos h10]
      refine ⟨by simp [digitChar_isDigit], by simp, ?_⟩
      simp [decVal, dval_digitChar n h10]
    · have hdiv : n / 10 < f := by
        have h1 : n / 10 < n := Nat.div_lt_self (by omega) (by omega)
        omega
      obtain ⟨ha, hne, hval⟩ := ih (n / 10) hdiv
      simp only [natDecGo, if_neg h10]
      refine ⟨?_, by simp, ?_⟩
      · simp [List.all_append, ha, digitChar_isDigit]
      · rw [decVal_append, hval, dval_digitChar (n % 10) (Nat.mod_lt n (by omega))]
        omega

theorem natDec_spec (n : Nat) :
    (natDec n).all Char.isDigit = true ∧ natDec n ≠ [] ∧ decVal (natDec n) = n :=
  natDecGo_spec (n + 1) n (by omega)

theorem parseDec_natDec (n : Nat) : parseDec (natDec n) = some n := by
  obtain ⟨ha, hne, hval⟩ := natDec_spec n
  simp [parseDec, hne, ha, hval]

theorem natDecGo_headD : ∀ (fuel n : Nat), n < fuel → 1 ≤ n →
    (natDecGo fuel n).headD '0' ≠ '0' := by
  intro fuel
  induction fuel with
  | zero => intro n h; omega
  | succ f ih =>
    intro n h h1
    by_cases h10 : n < 10
    · simp only [natDecGo, if_pos h10]
      have hb : ∀ m : Nat, m < 10 → 1 ≤ m → digitChar m ≠ '0' := by decide
      simpa using hb n h10 h1
    · have hdiv : n / 10 < f := by
        have := Nat.div_lt_self (show 0 < n by omega) (show 1 < 10 by omega)
        omega
      have hd1 : 1 ≤ n / 10 := (Nat.le_div_iff_mul_le (by omega)).mpr (by omega)
      obtain ⟨_, hne, _⟩ := natDecGo_spec f (n / 10) hdiv
      simp only [natDecGo, if_neg h10]
      cases hd : natDecGo f (n / 10) with
      | nil => exact absurd hd hne
      | cons c rest =>
        have := ih (n / 10) hdiv hd1
        rw [hd] at this
        simpa using this

end Primitives

namespace Primitives

theorem hexChar_isHex (n : Nat) : (hval (hexChar n)).isSome = true := by
  match n with
  | 0 | 1 | 2 | 3 | 4 | 5 | 6 | 7 | 8 | 9 | 10 | 11 | 12 | 13 | 14 => rfl
  | m + 15 => rfl

theorem hval_hexChar (b : Nat) (h : b < 16) : hval (hexChar b) = some b := by
  have hb : ∀ m : Nat, m < 16 → hval (hexChar m) = some m := by decide
  exact hb b h

theorem parseHexBytes_hexBytes : ∀ bs : List Nat, (∀ b ∈ bs, b < 256) →
    parseHexBytes (hexBytes bs) = some bs := by
  intro bs
  induction bs with
  | nil => intro _; rfl
  | cons b t ih =>
    intro hb
    have hb0 : b < 256 := hb b (by simp)
    have h1 : b / 16 < 16 := Nat.div_lt_of_lt_mul (by omega)
    have h2 : b % 16 < 16 := Nat.mod_lt b (by omega)
    have hbytes : hexBytes (b :: t) = hexChar (b / 16) :: hexChar (b % 16) :: hexBytes t := by
      simp [hexBytes, hexByte]
    rw [hbytes, parseHexBytes, hval_hexChar _ h1, hval_hexChar _ h2,
      ih (fun x hx => hb x (by simp [hx]))]
    have : b / 16 * 16 + b % 16 = b := by
      have := Nat.div_add_mod b 16
      omega
    simp [this]

theorem hexBytes_length : ∀ bs : List Nat, (hexBytes bs).length = 2 * bs.length := by
  intro bs
  induction bs with
  | nil => rfl
  | cons b t ih =>
    have hbytes : hexBytes (b :: t) = hexChar (b / 16) :: hexChar (b % 16) :: hexBytes t := by
      simp [hexBytes, hexByte]
    rw [hbytes]
    simp [ih]
    omega

theorem mem_hexBytes_isHex : ∀ (bs : List Nat) (c : Char), c ∈ hexBytes bs →
    (hval c).isSome = true := by
  intro bs
  induction bs with
  | nil => intro c hc; simp [hexBytes] at hc
  | cons b t ih =>
    intro c hc
    have hbytes : hexBytes (b :: t) = hexChar (b / 16) :: hexChar (b % 16) :: hexBytes t := by
      simp [hexBytes, hexByte]
    rw [hbytes] at hc
    rcases List.mem_cons.mp hc with hc | hc
    · exact hc ▸ hexChar_isHex _
    · rcases List.mem_cons.mp hc with hc | hc
      · exact hc ▸ hexChar_isHex _
      · exact ih c hc

theorem isHex_ne (c : Char) (h : (hval c).isSome = true) :
    c ≠ ':' ∧ c ≠ '@' ∧ c ≠ '/' ∧ c ≠ '?' ∧ c ≠ '#' ∧ c ≠ '[' := by
  refine ⟨?_, ?_, ?_, ?_, ?_, ?_⟩ <;>
    (intro heq; subst heq; exact absurd h (by decide))

theorem isDigit_ne (c : Char) (h : c.isDigit = true) :
    c ≠ ':' ∧ c ≠ '@' ∧ c ≠ '/' ∧ c ≠ '?' ∧ c ≠ '#' ∧ c ≠ '[' ∧ c ≠ '.' ∧
      c ≠ '&' ∧ c ≠ '=' ∧ c ≠ ']' := by
  have h' : 48 ≤ c.toNat ∧ c.toNat ≤ 57 := by
    simp [Char.isDigit] at h
    exact ⟨by exact_mod_cast h.1, by exact_mod_cast h.2⟩
  refine ⟨?_, ?_, ?_, ?_, ?_, ?_, ?_, ?_, ?_, ?_⟩ <;>
    (intro heq; subst heq; simp at h')

end Primitives

namespace Primitives

theorem takeWhile_append_all {α : Type} (p : α → Bool) :
    ∀ (l r : List α), (∀ c ∈ l, p c = true) →
      (l ++ r).takeWhile p = l ++ r.takeWhile p := by
  intro l
  induction l with
  | nil => intro r _; rfl
  | cons c t ih =>
    intro r h
    simp [List.takeWhile_cons, h c (by simp), ih r (fun x hx => h x (by simp [hx]))]

theorem takeWhile_all {α : Type} (p : α → Bool) (l : List α)
    (h : ∀ c ∈ l, p c = true) : l.takeWhile p = l := by
  have := takeWhile_append_all p l [] h
  simpa using this

theorem takeWhile_cons_false {α : Type} (p : α → Bool) (c : α) (r : List α)
    (h : p c = false) : (c :: r).takeWhile p = [] := by
  simp [List.takeWhile_cons, h]

theorem headD_append {α : Type} (l r : List α) (d : α) (h : l ≠ []) :
    (l ++ r).headD d = l.headD d := by
  cases l with
  | nil => exact absurd rfl h
  | cons c t => rfl

theorem headD_mem {α : Type} (l : List α) (d : α) (h : l ≠ []) : l.headD d ∈ l := by
  cases l with
  | nil => exact absurd rfl h
  | cons c t => simp

theorem drop_append_cons {α : Type} (l : List α) (x : α) (r : List α) :
    (l ++ x :: r).drop (l.length + 1) = r := by
  induction l with
  | nil => rfl
  | cons c t ih => simpa using ih

theorem splitLastChar_spec (sep : Char) (l r : List Char)
    (hl : ∀ c ∈ l, c ≠ sep) (hr : ∀ c ∈ r, c ≠ sep) :
    splitLastChar sep (l ++ sep :: r) = some (l, r) := by
  have hrev : (l ++ sep :: r).reverse = r.reverse ++ sep :: l.reverse := by
    simp
  have htw : (r.reverse ++ sep :: l.reverse).takeWhile (fun c => c != sep)
      = r.reverse := by
    rw [takeWhile_append_all _ r.reverse (sep :: l.reverse)
      (fun c hc => by simpa using hr c (by simpa using hc))]
    rw [takeWhile_cons_false _ sep l.reverse (by simp)]
    simp
  have hlen : r.reverse.length ≠ (l ++ sep :: r).length := by
    simp
    omega
  have hdrop : (r.reverse ++ sep :: l.reverse).drop (r.length + 1)
      = l.reverse := by
    have := drop_append_cons r.reverse sep l.reverse
    simpa using this
  simp only [splitLastChar, hrev, htw]
  rw [if_neg (by simpa using hlen)]
  simp [hdrop]

theorem splitFirst_spec (sep : Char) (l r : List Char)
    (hl : ∀ c ∈ l, c ≠ sep) :
    splitFirst sep (l ++ sep :: r) = (l, r) := by
  have htw : (l ++ sep :: r).takeWhile (fun c => c != sep) = l := by
    rw [takeWhile_append_all _ l (sep :: r)
      (fun c hc => by simpa using hl c hc)]
    rw [takeWhile_cons_false _ sep r (by simp)]
    simp
  simp only [splitFirst, htw]
  rw [drop_append_cons l sep r]

theorem splitFirst_no_sep (sep : Char) (l : List Char)
    (hl : ∀ c ∈ l, c ≠ sep) : splitFirst sep l = (l, []) := by
  have htw : l.takeWhile (fun c => c != sep) = l :=
    takeWhile_all _ l (fun c hc => by simpa using hl c hc)
  simp only [splitFirst, htw]
  rw [List.drop_eq_nil_of_le (by omega)]

theorem splitChar_no_sep (sep : Char) :
    ∀ l : List Char, (∀ c ∈ l, c ≠ sep) → splitChar sep l = [l] := by
  intro l
  induction l with
  | nil => intro _; rfl
  | cons c t ih =>
    intro h
    have hc : ¬ c = sep := h c (by simp)
    rw [splitChar, if_neg hc, ih (fun x hx => h x (by simp [hx]))]

theorem splitChar_sep_append (sep : Char) :
    ∀ (x rest : List Char), (∀ c ∈ x, c ≠ sep) →
      splitChar sep (x ++ sep :: rest) = x :: splitChar sep rest := by
  intro x
  induction x with
  | nil => intro rest _; simp [splitChar]
  | cons c t ih =>
    intro rest h
    have hc : ¬ c = sep := h c (by simp)
    rw [List.cons_append, splitChar, if_neg hc,
      ih rest (fun y hy => h y (by simp [hy]))]

theorem splitChar_joinSep (sep : Char) :
    ∀ parts : List (List Char), parts ≠ [] →
      (∀ part ∈ parts, ∀ c ∈ part, c ≠ sep) →
      splitChar sep (joinSep sep parts) = parts := by
  intro parts
  induction parts with
  | nil => intro h; exact absurd rfl h
  | cons x ps ih =>
    intro _ h
    cases ps with
    | nil =>
      show splitChar sep (joinSep sep [x]) = [x]
      rw [joinSep]
      exact splitChar_no_sep sep x (h x (by simp))
    | cons y ys =>
      show splitChar sep (x ++ sep :: joinSep sep (y :: ys)) = x :: y :: ys
      rw [splitChar_sep_append sep x _ (h x (by simp))]
      rw [ih (by simp) (fun part hp c hc => h part (by simp [hp]) c hc)]

theorem mem_joinSep {sep : Char} :
    ∀ (parts : List (List Char)) (c : Char), c ∈ joinSep sep parts →
      c = sep ∨ ∃ part ∈ parts, c ∈ part := by
  intro parts
  induction parts with
  | nil => intro c hc; simp [joinSep] at hc
  | cons x ps ih =>
    intro c hc
    cases ps with
    | nil =>
      right
      exact ⟨x, by simp, by simpa [joinSep] using hc⟩
    | cons y ys =>
      rw [show joinSep sep (x :: y :: ys) = x ++ sep :: joinSep sep (y :: ys) from rfl]
        at hc
      rcases List.mem_append.mp hc with hc | hc
      · exact .inr ⟨x, by simp, hc⟩
      · rcases List.mem_cons.mp hc with hc | hc
        · exact .inl hc
        · rcases ih c hc with hc | ⟨part, hp, hcp⟩
          · exact .inl hc
          · exact .inr ⟨part, by simp [hp], hcp⟩

end Primitives

namespace Primitives

theorem parseIpv4Octet_natDec (b : Nat) (hb : b ≤ 255) :
    parseIpv4Octet (natDec b) = some b := by
  rw [parseIpv4Octet, parseDec_natDec b]
  show (if b ≤ 255 ∧ ((natDec b).headD '0' = '0' → natDec b = ['0'])
      then some b else none) = some b
  rw [if_pos]
  refine ⟨hb, ?_⟩
  intro hhead
  by_cases hb0 : b = 0
  · subst hb0; rfl
  · exact absurd hhead (natDecGo_headD (b + 1) b (by omega) (by omega))

theorem natDec_mem_isDigit (n : Nat) (c : Char) (hc : c ∈ natDec n) :
    c.isDigit = true := by
  have := (natDec_spec n).1
  rw [List.all_eq_true] at this
  exact this c hc

theorem ipv4Display_mem (o : List Nat) (c : Char) (hc : c ∈ ipv4Display o) :
    c.isDigit = true ∨ c = '.' := by
  rcases mem_joinSep (o.map natDec) c hc with hc | ⟨part, hp, hcp⟩
  · exact .inr hc
  · obtain ⟨b, _, rfl⟩ := List.mem_map.mp hp
    exact .inl (natDec_mem_isDigit b c hcp)

theorem parseIpv4_display (o : List Nat) (h4 : o.length = 4)
    (hb : ∀ b ∈ o, b < 256) : parseIpv4 (ipv4Display o) = some o := by
  have hsplit : splitChar '.' (ipv4Display o) = o.map natDec := by
    apply splitChar_joinSep
    · intro he
      rw [List.map_eq_nil_iff] at he
      subst he
      simp at h4
    · intro part hp c hc
      obtain ⟨b, _, rfl⟩ := List.mem_map.mp hp
      exact ((isDigit_ne c (natDec_mem_isDigit b c hc)).2.2.2.2.2.2.1)
  have hparts : ∀ l : List Nat, (∀ b ∈ l, b < 256) →
      parseOctetList (l.map natDec) = some l := by
    intro l
    induction l with
    | nil => intro _; rfl
    | cons b t ih =>
      intro hbl
      rw [List.map_cons, parseOctetList,
        parseIpv4Octet_natDec b (by have := hbl b (by simp); omega),
        ih (fun x hx => hbl x (by simp [hx]))]
  rw [parseIpv4, hsplit, hparts o hb]
  show (if o.length = 4 then some o else none) = some o
  rw [if_pos h4]

theorem ipv4Display_headD_isDigit (o : List Nat) (ho : o ≠ []) :
    ((ipv4Display o).headD ' ').isDigit = true := by
  cases o with
  | nil => exact absurd rfl ho
  | cons b t =>
    have hne := (natDec_spec b).2.1
    have hd : (ipv4Display (b :: t)).headD ' ' = (natDec b).headD ' ' := by
      cases t with
      | nil =>
        show ((joinSep '.' [natDec b]).headD ' ') = _
        rw [joinSep]
      | cons b2 t2 =>
        show ((joinSep '.' (natDec b :: natDec b2 :: t2.map natDec)).headD ' ') = _
        rw [show joinSep '.' (natDec b :: natDec b2 :: t2.map natDec)
            = natDec b ++ '.' :: joinSep '.' (natDec b2 :: t2.map natDec) from rfl]
        exact headD_append _ _ ' ' hne
    rw [hd]
    exact natDec_mem_isDigit b _ (headD_mem _ ' ' hne)

theorem ipv4Display_ne_nil (o : List Nat) (ho : o ≠ []) : ipv4Display o ≠ [] := by
  cases o with
  | nil => exact absurd rfl ho
  | cons b t =>
    have hne := (natDec_spec b).2.1
    cases t with
    | nil =>
      show joinSep '.' [natDec b] ≠ []
      rw [joinSep]
      exact hne
    | cons b2 t2 =>
      show natDec b ++ '.' :: joinSep '.' (natDec b2 :: t2.map natDec) ≠ []
      simp

end Primitives

namespace Primitives

theorem urlParse_enode (userH hostA portT qtail : List Char) (v : Nat)
    (hH : ∀ c ∈ userH, (hval c).isSome = true)
    (hA : ∀ c ∈ hostA, c.isDigit = true ∨ c = '.')
    (hAne : hostA ≠ [])
    (hAhead : (hostA.headD ' ').isDigit = true)
    (hT : ∀ c ∈ portT, c.isDigit = true)
    (hTne : portT ≠ [])
    (hport : parsePortU16 portT = some v)
    (hq : qtail = [] ∨ ∃ qs, qtail = '?' :: qs) :
    urlParse ('e' :: 'n' :: 'o' :: 'd' :: 'e' :: ':' :: '/' :: '/' ::
        (userH ++ '@' :: (hostA ++ ':' :: (portT ++ qtail))))
      = some ⟨['e', 'n', 'o', 'd', 'e'], userH, false, hostA, some v,
          match qtail with
          | '?' :: qs => parseQueryPairs (qs.takeWhile (fun c => c != '#'))
          | _ => []⟩ := by
  have hAne' : ∀ c ∈ hostA ++ ':' :: portT, c ≠ '@' := by
    intro c hc
    rcases List.mem_append.mp hc with hc | hc
    · rcases hA c hc with h | h
      · exact (isDigit_ne c h).2.1
      · subst h; decide
    · rcases List.mem_cons.mp hc with hc | hc
      · subst hc; decide
      · exact (isDigit_ne c (hT c hc)).2.1
  have hscheme : ('e' :: 'n' :: 'o' :: 'd' :: 'e' :: ':' :: '/' :: '/' ::
      (userH ++ '@' :: (hostA ++ ':' :: (portT ++ qtail)))).takeWhile
        (fun c => c != ':') = ['e', 'n', 'o', 'd', 'e'] := rfl
  have hdrop5 : ('e' :: 'n' :: 'o' :: 'd' :: 'e' :: ':' :: '/' :: '/' ::
      (userH ++ '@' :: (hostA ++ ':' :: (portT ++ qtail)))).drop 5
      = ':' :: '/' :: '/' :: (userH ++ '@' :: (hostA ++ ':' :: (portT ++ qtail))) := rfl
  have hauthP : ∀ c : Char, (hval c).isSome = true ∨ c.isDigit = true ∨ c = '.'
      ∨ c = '@' ∨ c = ':' →
      ((c != '/') && (c != '?') && (c != '#')) = true := by
    intro c hc
    rcases hc with h | h | h | h | h
    · have := isHex_ne c h
      simp [this.2.2.1, this.2.2.2.1, this.2.2.2.2.1]
    · have := isDigit_ne c h
      simp [this.2.2.1, this.2.2.2.1, this.2.2.2.2.1]
    · subst h; decide
    · subst h; decide
    · subst h; decide
  have hauth : (userH ++ '@' :: (hostA ++ ':' :: (portT ++ qtail))).takeWhile
      (fun c => (c != '/') && (c != '?') && (c != '#'))
      = userH ++ '@' :: (hostA ++ ':' :: portT) := by
    rw [takeWhile_append_all _ userH _ (fun c hc => hauthP c (.inl (hH c hc)))]
    rw [show ('@' :: (hostA ++ ':' :: (portT ++ qtail))).takeWhile
        (fun c => (c != '/') && (c != '?') && (c != '#'))
        = '@' :: ((hostA ++ ':' :: (portT ++ qtail)).takeWhile
          (fun c => (c != '/') && (c != '?') && (c != '#'))) from by
      simp [List.takeWhile_cons]]
    rw [takeWhile_append_all _ hostA _
      (fun c hc => hauthP c ((hA c hc).elim
        (fun h => .inr (.inl h)) (fun h => .inr (.inr (.inl h)))))]
    rw [show (':' :: (portT ++ qtail)).takeWhile
        (fun c => (c != '/') && (c != '?') && (c != '#'))
        = ':' :: ((portT ++ qtail).takeWhile
          (fun c => (c != '/') && (c != '?') && (c != '#'))) from by
      simp [List.takeWhile_cons]]
    rw [takeWhile_append_all _ portT _
      (fun c hc => hauthP c (.inr (.inl (hT c hc))))]
    rcases hq with hq | ⟨qs, hq⟩ <;> subst hq
    · simp
    · rw [takeWhile_cons_false _ '?' qs (by decide)]
      simp
  have hlenassoc : userH ++ '@' :: (hostA ++ ':' :: (portT ++ qtail))
      = (userH ++ '@' :: (hostA ++ ':' :: portT)) ++ qtail := by
    simp
  have hafter : (userH ++ '@' :: (hostA ++ ':' :: (portT ++ qtail))).drop
      (userH ++ '@' :: (hostA ++ ':' :: portT)).length = qtail := by
    rw [hlenassoc]
    exact List.drop_left _ _
  have hsplit : splitLastChar '@' (userH ++ '@' :: (hostA ++ ':' :: portT))
      = some (userH, hostA ++ ':' :: portT) :=
    splitLastChar_spec '@' userH (hostA ++ ':' :: portT)
      (fun c hc => (isHex_ne c (hH c hc)).2.1) hAne'
  have husername : userH.takeWhile (fun c => c != ':') = userH :=
    takeWhile_all _ userH (fun c hc => by
      simpa using (isHex_ne c (hH c hc)).1)
  have hheadD : (hostA ++ ':' :: portT).headD ' ' ≠ '[' := by
    rw [headD_append hostA _ ' ' hAne]
    exact (isDigit_ne _ hAhead).2.2.2.2.2.1
  have hhost : (hostA ++ ':' :: portT).takeWhile (fun c => c != ':') = hostA := by
    rw [takeWhile_append_all _ hostA _ (fun c hc => by
      rcases hA c hc with h | h
      · simpa using (isDigit_ne c h).1
      · subst h; decide)]
    rw [takeWhile_cons_false _ ':' portT (by decide)]
    simp
  have hdrophost : (hostA ++ ':' :: portT).drop hostA.length = ':' :: portT :=
    List.drop_left _ _
  simp only [urlParse, hscheme, List.length_cons, List.length_nil, hdrop5]
  rw [if_neg (by simp)]
  simp only [hauth, hafter, hsplit, husername]
  rw [if_neg hheadD]
  simp only [hhost, hdrophost]
  rw [if_neg hAne]
  simp only [hport]
  rw [if_neg hTne]
  rcases hq with hq | ⟨qs, hq⟩ <;> subst hq <;> rfl

end Primitives

namespace Primitives

theorem natDec_ne_nil (n : Nat) : natDec n ≠ [] := (natDec_spec n).2.1

theorem parsePortU16_natDec (n : Nat) (h : n < 65536) :
    parsePortU16 (natDec n) = some n := by
  simp only [parsePortU16, parseDec_natDec]
  rw [if_pos (by omega)]

theorem discport_query (udp : Nat) :
    parseQueryPairs ('d' :: 'i' :: 's' :: 'c' :: 'p' :: 'o' :: 'r' :: 't' ::
      '=' :: natDec udp) = [("discport".data, natDec udp)] := by
  have hsplit : splitChar '&' ("discport=".data ++ natDec udp)
      = [("discport=".data ++ natDec udp)] := by
    apply splitChar_no_sep
    intro c hc
    rcases List.mem_append.mp hc with hc | hc
    · exact (show ∀ c ∈ "discport=".data, c ≠ '&' from by decide) c hc
    · exact (isDigit_ne c (natDec_mem_isDigit udp c hc)).2.2.2.2.2.2.2.1
  show parseQueryPairs ("discport=".data ++ natDec udp) = _
  simp only [parseQueryPairs, hsplit, List.map]
  rw [show "discport=".data ++ natDec udp
      = "discport".data ++ '=' :: natDec udp from rfl]
  rw [splitFirst_spec '=' _ _ (by decide)]

theorem peerIdFromStr_hexBytes (id : List Nat) (hlen : id.length = 64)
    (hb : ∀ b ∈ id, b < 256) : peerIdFromStr (hexBytes id) = some id := by
  simp only [peerIdFromStr]
  rw [hexBytes_length, hlen, if_pos (by omega)]
  exact parseHexBytes_hexBytes id hb

theorem nodeRecordFromStr_display_v4 (o id : List Nat) (tcp udp : Nat)
    (hWF : NodeRecord.WF ⟨.v4 o, tcp, udp, id⟩) :
    nodeRecordFromStr (displayNodeRecord ⟨.v4 o, tcp, udp, id⟩)
      = some ⟨.v4 o, tcp, udp, id⟩ := by
  obtain ⟨hwfa, htcp, hudp, hidlen, hidb⟩ := hWF
  obtain ⟨h4, hb⟩ := hwfa
  have htcp' : tcp < 65536 := htcp
  have hudp' : udp < 65536 := hudp
  have hone : o ≠ [] := by intro he; rw [he] at h4; simp at h4
  have hpid := peerIdFromStr_hexBytes id hidlen hidb
  have hip := parseIpv4_display o h4 hb
  have hH : ∀ c ∈ hexBytes id, (hval c).isSome = true :=
    fun c hc => mem_hexBytes_isHex id c hc
  have hA : ∀ c ∈ ipv4Display o, c.isDigit = true ∨ c = '.' :=
    fun c hc => ipv4Display_mem o c hc
  have hT : ∀ c ∈ natDec tcp, c.isDigit = true :=
    fun c hc => natDec_mem_isDigit tcp c hc
  by_cases hpq : tcp = udp
  · have hshape : displayNodeRecord ⟨.v4 o, tcp, udp, id⟩
        = 'e' :: 'n' :: 'o' :: 'd' :: 'e' :: ':' :: '/' :: '/' ::
          (hexBytes id ++ '@' :: (ipv4Display o ++ ':' ::
            (natDec tcp ++ []))) := by
      rw [displayNodeRecord]
      rw [show (⟨.v4 o, tcp, udp, id⟩ : NodeRecord).tcp_port = tcp from rfl,
        show (⟨.v4 o, tcp, udp, id⟩ : NodeRecord).udp_port = udp from rfl,
        if_neg (by simpa using hpq)]
      show ('e' :: 'n' :: 'o' :: 'd' :: 'e' :: ':' :: '/' :: '/' ::
        ([] : List Char)) ++ hexBytes id ++ '@' :: ipDisplay (.v4 o) ++
        ':' :: natDec tcp ++ [] = _
      simp [ipDisplay]
    have hurl := urlParse_enode (hexBytes id) (ipv4Display o)
      (natDec tcp) [] tcp hH hA
      (ipv4Display_ne_nil o hone) (ipv4Display_headD_isDigit o hone) hT
      (natDec_ne_nil tcp) (parsePortU16_natDec tcp htcp)
      (.inl rfl)
    rw [hshape]
    simp only [nodeRecordFromStr, hurl]
    simp [hip, hpid, hpq]
  · have hshape : displayNodeRecord ⟨.v4 o, tcp, udp, id⟩
        = 'e' :: 'n' :: 'o' :: 'd' :: 'e' :: ':' :: '/' :: '/' ::
          (hexBytes id ++ '@' :: (ipv4Display o ++ ':' ::
            (natDec tcp ++ '?' :: ("discport=".data ++ natDec udp)))) := by
      rw [displayNodeRecord]
      rw [show (⟨.v4 o, tcp, udp, id⟩ : NodeRecord).tcp_port = tcp from rfl,
        show (⟨.v4 o, tcp, udp, id⟩ : NodeRecord).udp_port = udp from rfl,
        if_pos hpq]
      show ('e' :: 'n' :: 'o' :: 'd' :: 'e' :: ':' :: '/' :: '/' ::
        ([] : List Char)) ++ hexBytes id ++ '@' :: ipDisplay (.v4 o) ++
        ':' :: natDec tcp ++
        ('?' :: ([] : List Char) ++ ("discport=".data ++ natDec udp)) = _
      simp [ipDisplay]
    have hurl := urlParse_enode (hexBytes id) (ipv4Display o)
      (natDec tcp) ('?' :: ("discport=".data ++ natDec udp))
      tcp hH hA
      (ipv4Display_ne_nil o hone) (ipv4Display_headD_isDigit o hone) hT
      (natDec_ne_nil tcp) (parsePortU16_natDec tcp htcp)
      (.inr ⟨_, rfl⟩)
    rw [hshape]
    have htwq : (natDec udp).takeWhile (fun c => c != '#') = natDec udp :=
      takeWhile_all _ _ (fun c hc => by
        simpa using (isDigit_ne c (natDec_mem_isDigit udp c hc)).2.2.2.2.1)
    have hq2 : parseQueryPairs ('d' :: 'i' :: 's' :: 'c' :: 'p' :: 'o' ::
        'r' :: 't' :: '=' :: natDec udp) = [("discport".data, natDec udp)] :=
      discport_query udp
    simp only [nodeRecordFromStr, hurl]
    simp [hip, hpid, parseDec_natDec, htwq, hq2, Nat.lt_succ_iff.mp hudp']

end Primitives

namespace Primitives

theorem question_mem_display_v4 (o id : List Nat) (tcp udp : Nat) :
    '?' ∈ displayNodeRecord ⟨.v4 o, tcp, udp, id⟩ ↔ tcp ≠ udp := by
  by_cases hpq : tcp = udp
  · have hnm : '?' ∉ displayNodeRecord ⟨.v4 o, tcp, udp, id⟩ := by
      intro hm
      simp only [displayNodeRecord, ipDisplay] at hm
      rw [if_neg (by simpa using hpq), List.append_nil] at hm
      rcases List.mem_append.mp hm with hm | hm
      · rcases List.mem_append.mp hm with hm | hm
        · rcases List.mem_append.mp hm with hm | hm
          · exact absurd hm (by decide)
          · exact absurd rfl (isHex_ne '?' (mem_hexBytes_isHex id '?' hm)).2.2.2.1
        · rcases List.mem_cons.mp hm with hm | hm
          · exact absurd hm (by decide)
          · rcases ipv4Display_mem o '?' hm with h | h
            · exact absurd rfl (isDigit_ne '?' h).2.2.2.1
            · exact absurd h (by decide)
      · rcases List.mem_cons.mp hm with hm | hm
        · exact absurd hm (by decide)
        · exact absurd rfl
            (isDigit_ne '?' (natDec_mem_isDigit tcp '?' hm)).2.2.2.1
    exact ⟨fun hm => absurd hm hnm, fun hne => absurd hpq hne⟩
  · refine ⟨fun _ => hpq, fun _ => ?_⟩
    simp only [displayNodeRecord]
    rw [if_pos hpq]
    simp

end Primitives

open Primitives in
/-- C7 (corrected): for every well-formed `NodeRecord` with an IPv4
address, `FromStr` applied to the `Display` string returns the identical
record, both when the ports agree and when the `?discport=` suffix is
rendered; and the `Display` form emits a `?` (the `?discport=` suffix)
iff `tcp_port ≠ udp_port`.  (For IPv6 addresses the `Display`
implementation omits the URL brackets around the host, so the rendered
string does not parse back; see the counterexample.) -/
theorem C7_enode_url (o id : List Nat) (tcp udp : Nat)
    (hWF : NodeRecord.WF ⟨.v4 o, tcp, udp, id⟩) :
    nodeRecordFromStr (displayNodeRecord ⟨.v4 o, tcp, udp, id⟩)
        = some ⟨.v4 o, tcp, udp, id⟩ ∧
      ('?' ∈ displayNodeRecord ⟨.v4 o, tcp, udp, id⟩ ↔ tcp ≠ udp) :=
  ⟨nodeRecordFromStr_display_v4 o id tcp udp hWF,
    question_mem_display_v4 o id tcp udp⟩

open Primitives in
/-- Witness for C7: the sample IPv4 record with distinct ports
round-trips and renders the discport suffix. -/
theorem C7_enode_url_witness :
    NodeRecord.WF ⟨.v4 [10, 3, 58, 6], 30303, 30301,
        (List.range 64).map (fun i => (i * 7 + 3) % 256)⟩ ∧
      (nodeRecordFromStr (displayNodeRecord ⟨.v4 [10, 3, 58, 6], 30303, 30301,
            (List.range 64).map (fun i => (i * 7 + 3) % 256)⟩)
          = some ⟨.v4 [10, 3, 58, 6], 30303, 30301,
            (List.range 64).map (fun i => (i * 7 + 3) % 256)⟩ ∧
        ('?' ∈ displayNodeRecord ⟨.v4 [10, 3, 58, 6], 30303, 30301,
            (List.range 64).map (fun i => (i * 7 + 3) % 256)⟩ ↔
          (30303 : Nat) ≠ 30301)) :=
  ⟨by decide,
    C7_enode_url [10, 3, 58, 6] ((List.range 64).map (fun i => (i * 7 + 3) % 256))
      30303 30301 (by decide)⟩

set_option maxRecDepth 8000 in
open Primitives in
/-- The original C7 claim fails for IPv6 addresses: `Display` for
`IpAddr::V6` omits the square brackets a URL requires around a host
containing colons, so the first colon of the rendered IPv6 address is
taken as the start of the port and parsing fails, even for a
well-formed record with equal ports. -/
theorem C7_counterexample :
    NodeRecord.WF recC7v6 ∧
      nodeRecordFromStr (displayNodeRecord recC7v6) = none :=
  ⟨by decide, rfl⟩


end Reth
